import Mathlib

/-!
# Verification of the stacker stack-synchronization engine

A shallow embedding of the core of the `stacker` tool (trailer codec,
stack builder, PR-body composer, CI-status logic, land-command decision
sequence), with theorems settling the specification's claims.

JavaScript strings are modelled as `List Char` (`Str`); `split("\n")` /
`join("\n")` become explicit recursive functions; JS `Map` objects become
association lists with `Map.set` / `Map.get` semantics (`mapSet` /
`getVal`); `undefined`/`null` become `Option`.
-/

set_option maxRecDepth 4000

/-- A JS string, modelled as a list of characters. -/
abbrev Str := List Char

/-- Shorthand converting a Lean string literal to the `Str` model. -/
def str (s : String) : Str := s.toList

/-! ## Splitting and joining on newlines (JS `split("\n")` / `join("\n")`) -/

/-- `message.split("\n")`: always returns at least one (possibly empty) line. -/
def splitLines : Str → List Str
  | [] => [[]]
  | c :: rest =>
    match splitLines rest with
    | [] => [[]]
    | l :: ls => if c = '\n' then [] :: l :: ls else (c :: l) :: ls

/-- `parts.join(sep)`. -/
def joinWith (sep : Str) : List Str → Str
  | [] => []
  | [l] => l
  | l :: ls => l ++ sep ++ joinWith sep ls

/-- `lines.join("\n")`. -/
def joinLines (ls : List Str) : Str := joinWith ['\n'] ls

/-! ## The trailer-line regular expression

`/^([A-Za-z][A-Za-z0-9-]*): (.+)$/` — shared by `parseTrailers`,
`setTrailers` and `stripStackerTrailers` in `src/utils/trailers.ts`.
`.` in a JS regex does not match `'\n'` or `'\r'`. -/

/-- A character allowed in a trailer key after the first: `[A-Za-z0-9-]`. -/
def isKeyChar (c : Char) : Bool := c.isAlpha || c.isDigit || c = '-'

/-- A character matched by `.` in the JS regex (no line terminators). -/
def isValueChar (c : Char) : Bool := !(c = '\n' || c = '\r')

/-- Match one line against `^([A-Za-z][A-Za-z0-9-]*): (.+)$`, returning the
key/value capture groups on success. -/
def matchTrailer : Str → Option (Str × Str)
  | [] => none
  | c :: rest =>
    if c.isAlpha then
      match rest.dropWhile isKeyChar with
      | c1 :: c2 :: v =>
        if c1 = ':' ∧ c2 = ' ' ∧ v ≠ [] ∧ v.all isValueChar then
          some (c :: rest.takeWhile isKeyChar, v)
        else none
      | _ => none
    else none

/-! ## JS `Map` as an association list -/

/-- `Map.get`: value of the first (and, for maps built by `mapSet`, only)
entry with the given key. -/
def getVal (m : List (Str × Str)) (k : Str) : Option Str :=
  match m with
  | [] => none
  | (k', v) :: rest => if k' = k then some v else getVal rest k

/-- `Map.set`: update the entry in place if the key exists, else append.
(On the unique-key lists a JS `Map` holds — and every map in this file is
built by `mapSet` or key-guarded insertion, so has unique keys — replacing
the first occurrence is exactly `Map.set`.) -/
def mapSet (m : List (Str × Str)) (k v : Str) : List (Str × Str) :=
  match m with
  | [] => [(k, v)]
  | (k', v') :: rest => if k' = k then (k, v) :: rest else (k', v') :: mapSet rest k v

/-- One step of the merge fold `new Map([...existing, ...newTrailers])`. -/
def mapSetStep (m : List (Str × Str)) (p : Str × Str) : List (Str × Str) :=
  mapSet m p.1 p.2

/-- One step of the first-insertion-wins accumulation of `parseTrailers`
(`if (!trailers.has(key)) trailers.set(key, value)`). -/
def insPair (m : List (Str × Str)) (p : Str × Str) : List (Str × Str) :=
  if (getVal m p.1).isSome then m else m ++ [p]

/-! ## The trailer codec (`src/utils/trailers.ts`) -/

/-- The reserved key namespace `"Stacker-"`. -/
def stackerPfx : Str := str "Stacker-"

/-- `TRAILER_KEYS.BRANCH`. -/
def kBRANCH : Str := str "Stacker-Branch"

/-- `TRAILER_KEYS.PR`. -/
def kPR : Str := str "Stacker-PR"

/-- `TRAILER_KEYS.DEPENDS_ON`. -/
def kDEPENDS : Str := str "Stacker-Depends-On"

/-- One step of the existing-trailer collection loop of `setTrailers`
(`if (match) existingTrailers.set(match[1], match[2])`). -/
def lineStep (m : List (Str × Str)) (l : Str) : List (Str × Str) :=
  match matchTrailer l with
  | some (k, v) => mapSet m k v
  | none => m

/-- The backward scan of `parseTrailers`, on the reversed line list.
An empty line ends the scan once inside the trailer block and is skipped
otherwise; a matching line enters the block and records its key/value if the
key is new; a non-matching line ends the scan only once inside the block. -/
def parseLoop : List Str → Bool → List (Str × Str) → List (Str × Str)
  | [], _, acc => acc
  | line :: rest, inBlock, acc =>
    if line.isEmpty then
      if inBlock then acc else parseLoop rest inBlock acc
    else
      match matchTrailer line with
      | some (k, v) => parseLoop rest true (insPair acc (k, v))
      | none => if inBlock then acc else parseLoop rest false acc

/-- `parseTrailers` on an already-split message. -/
def parseTrailersLines (lines : List Str) : List (Str × Str) :=
  parseLoop lines.reverse false []

/-- `parseTrailers(commitMessage)`. -/
def parseTrailers (m : Str) : List (Str × Str) := parseTrailersLines (splitLines m)

/-- `getStackerTrailers(commitMessage)`: only the `Stacker-`-prefixed entries. -/
def getStackerTrailers (m : Str) : List (Str × Str) :=
  (parseTrailers m).filter (fun p => stackerPfx.isPrefixOf p.1)

/-- Trailing empty lines of the line list (the lines skipped with
`trailerStartIndex` still at `lines.length` in `setTrailers`' scan). -/
def trailingEmpties (lines : List Str) : Nat :=
  (lines.reverse.takeWhile List.isEmpty).length

/-- Length of the run of consecutive trailer-shaped lines, scanning a
reversed suffix. -/
def trailerRun : List Str → Nat
  | [] => 0
  | l :: rest => if (matchTrailer l).isSome then trailerRun rest + 1 else 0

/-- The `trailerStartIndex` computed by `setTrailers`' backward scan: the
index of the first line of the terminal trailer block, or `lines.length`
when no such block exists.  In the source loop, trailing blank lines are
skipped while no trailer line has been seen, each trailer-shaped line lowers
the index, and the scan stops at the first blank line after a trailer line
or at the first non-matching line. -/
def trailerStartIndex (lines : List Str) : Nat :=
  if trailerRun (lines.reverse.dropWhile List.isEmpty) = 0 then lines.length
  else
    lines.length - (lines.reverse.takeWhile List.isEmpty).length -
      trailerRun (lines.reverse.dropWhile List.isEmpty)

/-- Remove trailing empty lines (the `while (...) bodyLines.pop()` loops). -/
def dropTrailingEmpties (ls : List Str) : List Str :=
  (ls.reverse.dropWhile List.isEmpty).reverse

/-- Render one merged trailer entry as the line `` `${key}: ${value}` ``. -/
def lineOf (p : Str × Str) : Str := p.1 ++ ':' :: ' ' :: p.2

/-- `setTrailers` on an already-split message: locate the terminal trailer
block, merge the new trailers over the existing ones (new values win,
first-insertion order kept), strip trailing blank lines from the body and
re-emit body, one blank line and the merged block (if non-empty). -/
def setTrailersLines (lines : List Str) (t : List (Str × Str)) : List Str :=
  let tSI := trailerStartIndex lines
  let existing := (lines.drop tSI).foldl lineStep []
  let merged := t.foldl mapSetStep existing
  let body := dropTrailingEmpties (lines.take tSI)
  let tLines := merged.map lineOf
  if tLines.isEmpty then body else body ++ [[]] ++ tLines

/-- `setTrailers(commitMessage, trailers)`. -/
def setTrailers (m : Str) (t : List (Str × Str)) : Str :=
  joinLines (setTrailersLines (splitLines m) t)

/-- `stripStackerTrailers` on an already-split message; `none` means the
source function returns the original message unchanged (no trailer block
found, i.e. `trailerBlockStart === -1`).  The backward scan skips lines
(blank or not) until the first trailer-shaped line, collects the run of
trailer-shaped lines (keeping non-`Stacker-` ones, in message order), and
records the block start when stopped by a blank or non-matching line; if the
scan runs off the start of the message the block start is never recorded. -/
def stripLines (lines : List Str) : Option (List Str) :=
  let rev := lines.reverse
  let rest := rev.dropWhile (fun l => (matchTrailer l).isNone)
  let run := rest.takeWhile (fun l => (matchTrailer l).isSome)
  let stop := rest.dropWhile (fun l => (matchTrailer l).isSome)
  if stop.isEmpty then none
  else
    let body := dropTrailingEmpties stop.reverse
    let nonStacker := run.reverse.filter (fun l =>
      match matchTrailer l with
      | some (k, _) => !(stackerPfx.isPrefixOf k)
      | none => false)
    some (if nonStacker.isEmpty then body else body ++ [[]] ++ nonStacker)

/-- `stripStackerTrailers(commitMessage)`. -/
def stripStackerTrailers (m : Str) : Str :=
  match stripLines (splitLines m) with
  | none => m
  | some ls => joinLines ls


/-! ## Data model (`src/types.ts`) -/

/-- A parsed commit (the `trailers` field of the source interface is re-read
from `body` wherever the stack logic needs it, so it is not duplicated
here). -/
structure Commit where
  sha : Str
  shortSha : Str
  subject : Str
  body : Str
deriving DecidableEq

/-- One entry of a stack: one commit paired with its branch and PR. -/
structure StackEntry where
  commit : Commit
  prNumber : Option Nat
  prUrl : Option Str
  branchName : Str
  targetBranch : Str
deriving DecidableEq

/-- A dependency of one stack on another stack's top branch. -/
structure StackDependency where
  stackName : Str
  topBranch : Str
  prNumber : Option Nat
  autoDetected : Bool
deriving DecidableEq

/-- An ordered stack (bottom entry first). -/
structure Stack where
  name : Str
  entries : List StackEntry
  target : Str
  dependsOn : Option StackDependency
deriving DecidableEq

/-! ## Numbers as JS renders and parses them -/

/-- `` `${n}` `` for a natural number. -/
def natToStr (n : Nat) : Str := Nat.toDigits 10 n

/-- `parseInt(s, 10)`, with `NaN` as `none`.  The leading-whitespace and
sign handling of `parseInt` is omitted: every call site parses a trailer
value that was written back as plain decimal digits. -/
def jsParseInt (s : Str) : Option Nat :=
  let ds := s.takeWhile Char.isDigit
  if ds.isEmpty then none
  else some (ds.foldl (fun acc c => acc * 10 + (c.toNat - 48)) 0)

/-! ## Stack naming (`src/core/stack.ts`) -/

/-- The scan behind the lazy regex `/^stack\/(.+?)\/\d+$/`: walking the text
after `"stack/"` left to right, return the shortest non-empty prefix whose
remainder is a slash followed by one or more digits. -/
def findSplit (accRev : Str) : Str → Option Str
  | [] => none
  | c :: rest =>
    if c = '/' ∧ accRev ≠ [] ∧ rest ≠ [] ∧ rest.all Char.isDigit then some accRev.reverse
    else findSplit (c :: accRev) rest

/-- `extractStackName(branchName)`: `"stack/update-docs/3"` becomes
`"update-docs"`; anything not matching `/^stack\/(.+?)\/\d+$/` is returned
unchanged. -/
def extractStackName (branchName : Str) : Str :=
  if (str "stack/").isPrefixOf branchName then
    match findSplit [] (branchName.drop 6) with
    | some mid => mid
    | none => branchName
  else branchName

/-- `generateStackBranchName(baseBranch, index)` =
`` `stack/${baseBranch}/${index}` ``. -/
def generateStackBranchName (baseBranch : Str) (index : Nat) : Str :=
  str "stack/" ++ baseBranch ++ '/' :: natToStr index

/-- `` `https://github.com/${repo}/pull/${prNumber}` ``. -/
def prUrlOf (repo : Str) (n : Nat) : Str :=
  str "https://github.com/" ++ repo ++ str "/pull/" ++ natToStr n

/-! ## Dependency detection and stack building (`src/core/stack.ts`)

The git and GitHub collaborators are inputs of the embedding: the parsed
merge-base commit body stands in for `getMergeBase` + `parseCommit`, and a
`findPR : Str → Option Nat` oracle stands in for `findPRByBranch`. -/

/-- `detectDependency(currentBranch, target)`: inspect the merge-base
commit's `Stacker-` trailers; a stack-branch trailer whose derived stack
name differs from the current one yields a dependency. -/
def detectDependency (currentBranch : Str) (baseBody : Str) : Option StackDependency :=
  let trailers := getStackerTrailers baseBody
  match getVal trailers kBRANCH with
  | none => none
  | some baseStackBranch =>
    let baseStackName := extractStackName baseStackBranch
    let currentStackName := extractStackName currentBranch
    if baseStackName = currentStackName then none
    else
      let prNumber := match getVal trailers kPR with
        | some s => jsParseInt s
        | none => none
      some ⟨baseStackName, baseStackBranch, prNumber, true⟩

/-- The entry-building loop of `buildStack`: position `i` starts at 0,
`entries` accumulates; the target branch of entry 0 is the dependency's top
branch if present, else the configured target, and of entry `i > 0` the
previous entry's (`entries[i - 1]`, i.e. the accumulator's last) branch
name. -/
def buildStackEntries (stackName target : Str) (dep : Option StackDependency)
    (repo : Str) (findPR : Str → Option Nat) :
    List Commit → Nat → List StackEntry → List StackEntry
  | [], _, entries => entries
  | c :: rest, i, entries =>
    let trailers := getStackerTrailers c.body
    let branchName := match getVal trailers kBRANCH with
      | some b => b
      | none => generateStackBranchName stackName (i + 1)
    let prNumber := match getVal trailers kPR with
      | some s => jsParseInt s
      | none => findPR branchName
    let targetBranch :=
      if i = 0 then
        match dep with
        | some d => d.topBranch
        | none => target
      else
        match entries.getLast? with
        | some prev => prev.branchName
        | none => []
    let prUrl := prNumber.map (prUrlOf repo)
    buildStackEntries stackName target dep repo findPR rest (i + 1)
      (entries ++ [⟨c, prNumber, prUrl, branchName, targetBranch⟩])

/-- `buildStack(options)`, with the collaborator responses as inputs. -/
def buildStack (currentBranch target repo : Str) (baseBody : Str)
    (findPR : Str → Option Nat) (commits : List Commit) : Stack :=
  let stackName := extractStackName currentBranch
  let dep := detectDependency currentBranch baseBody
  { name := stackName
    entries := buildStackEntries stackName target dep repo findPR commits 0 []
    target := target
    dependsOn := dep }


/-! ## PR body composer (`generatePRBody` / `removeStackerSection`) -/

/-- JS `String.prototype.trim()` (the inputs at the call sites only carry
ASCII whitespace, which `Char.isWhitespace` covers). -/
def trimStr (s : Str) : Str :=
  ((s.dropWhile Char.isWhitespace).reverse.dropWhile Char.isWhitespace).reverse

/-- `haystack.indexOf(needle)`, with `-1` as `none`. -/
def indexOfSub (s pat : Str) : Option Nat :=
  if pat.isPrefixOf s then some 0
  else
    match s with
    | [] => none
    | _ :: rest => (indexOfSub rest pat).map (· + 1)

/-- The `<!-- stacker:start -->` marker. -/
def startMarker : Str := str "<!-- stacker:start -->"

/-- The `<!-- stacker:end -->` marker. -/
def endMarker : Str := str "<!-- stacker:end -->"

/-- `removeStackerSection(body)`: cut from the first start marker to the end
of the first end marker and trim; if either marker is missing, return the
body unchanged. -/
def removeStackerSection (body : Str) : Str :=
  match indexOfSub body startMarker, indexOfSub body endMarker with
  | some si, some ei => trimStr (body.take si ++ body.drop (ei + endMarker.length))
  | _, _ => body

/-- `` `#${n}` `` or the fallback text when no PR number is known. -/
def prRefOf (pn : Option Nat) (fallback : Str) : Str :=
  match pn with
  | some n => '#' :: natToStr n
  | none => fallback

/-- `generatePRBody(stack, currentIndex, originalBody?)`: the marker-fenced
stack block (dependency callout, table with the current row bold, prev/next
navigation), then the current commit's body with `Stacker-` trailers
stripped, then the original body with any previous stacker section
removed. -/
def generatePRBody (stack : Stack) (currentIndex : Nat) (originalBody : Option Str) : Str :=
  let headLines : List Str := [startMarker, str "## Stack", []]
  let depLines : List Str :=
    match stack.dependsOn with
    | some d =>
      let depPr := prRefOf d.prNumber d.topBranch
      [str "> This stack depends on **" ++ d.stackName ++ str "** (" ++ depPr ++ [')'], []]
    | none => []
  let tableLines : List Str :=
    [str "| # | PR | Title |", str "|---|-----|-------|"] ++
    stack.entries.enum.map (fun p =>
      let num := natToStr (p.1 + 1)
      let prRef := prRefOf p.2.prNumber (str "(pending)")
      let title := p.2.commit.subject
      if p.1 = currentIndex then
        str "| " ++ num ++ str " | **" ++ prRef ++ str "** | **" ++ title ++ str " (this PR)** |"
      else
        str "| " ++ num ++ str " | " ++ prRef ++ str " | " ++ title ++ str " |")
  let prevEntry := if currentIndex > 0 then stack.entries.get? (currentIndex - 1) else none
  let nextEntry :=
    if currentIndex < stack.entries.length - 1 then stack.entries.get? (currentIndex + 1)
    else none
  let navParts : List Str :=
    (match prevEntry with
     | some p => [str "⬅️ Prev: " ++ prRefOf p.prNumber p.branchName]
     | none => []) ++
    (match nextEntry with
     | some p => [str "Next: " ++ prRefOf p.prNumber p.branchName ++ str " ➡️"]
     | none => [])
  let navLines : List Str := if navParts.isEmpty then [] else [joinWith (str " | ") navParts, []]
  let tailLines : List Str := [str "---", endMarker]
  let commitLines : List Str :=
    match stack.entries.get? currentIndex with
    | some e =>
      let commitBody := trimStr (stripStackerTrailers e.commit.body)
      if commitBody.isEmpty then [] else [[], commitBody]
    | none => []
  let originalLines : List Str :=
    match originalBody with
    | some ob =>
      if ob.isEmpty then []
      else
        let cleanedBody := removeStackerSection ob
        if (trimStr cleanedBody).isEmpty then [] else [[], cleanedBody]
    | none => []
  joinLines (headLines ++ depLines ++ tableLines ++ [[]] ++ navLines ++ tailLines ++
    commitLines ++ originalLines)

/-! ## CI status logic (`areCIChecksPassing`, `src/core/github.ts`) -/

/-- One entry of a PR's `statusCheckRollup` as normalized by
`getPRStatus`. -/
structure CheckInfo where
  name : Str
  status : Str
  conclusion : Option Str
deriving DecidableEq

/-- `check.conclusion === "FAILURE" || check.conclusion === "ERROR"`. -/
def isFailConclusion (c : CheckInfo) : Bool :=
  c.conclusion = some (str "FAILURE") || c.conclusion = some (str "ERROR")

/-- `check.status === "IN_PROGRESS" || "PENDING" || "QUEUED"`. -/
def isPendingStatus (c : CheckInfo) : Bool :=
  c.status = str "IN_PROGRESS" || c.status = str "PENDING" || c.status = str "QUEUED"

/-- The result object of `areCIChecksPassing`. -/
structure CIResult where
  passing : Bool
  pending : Bool
  failing : Bool
  checks : List CheckInfo
deriving DecidableEq

/-- One iteration of the `areCIChecksPassing` loop over the mutable
`(passing, pending, failing)` state. -/
def ciStep (st : Bool × Bool × Bool) (c : CheckInfo) : Bool × Bool × Bool :=
  if isFailConclusion c then (false, st.2.1, true)
  else if isPendingStatus c then (false, true, st.2.2)
  else st

/-- `areCIChecksPassing`, as a function of the PR's check rollup (the
network fetch of `getPRStatus` is an input). -/
def areCIChecksPassing (checks : List CheckInfo) : CIResult :=
  let st := checks.foldl ciStep (true, false, false)
  ⟨st.1, st.2.1, st.2.2, checks⟩

/-! ## The submit command's synchronizer gate (`src/commands/submit.ts`)

`submitCommand` invokes `rebaseWithTrailers` (the rewrite of every commit in
the range) only when `needsRebase` is set by the phase-2 comparison loop. -/

/-- `String(prNumbers[i] ?? '')`. -/
def jsStringOfPr (pn : Option Nat) : Str :=
  match pn with
  | some n => natToStr n
  | none => []

/-- The per-entry comparison of the phase-2 loop: `true` when
`existingPr !== String(prNumbers[i] ?? '') || existingBranch !==
entry.branchName` (a JS `!==` between `undefined` and a string is always
`true`). -/
def needsTrailerUpdate (body branchName : Str) (pn : Option Nat) : Bool :=
  let existingTrailers := getStackerTrailers body
  let existingPr := getVal existingTrailers kPR
  let existingBranch := getVal existingTrailers kBRANCH
  decide (existingPr ≠ some (jsStringOfPr pn)) || decide (existingBranch ≠ some branchName)

/-- The `needsRebase` flag over (commit body, branch name, resolved PR)
triples; the source loop breaks at the first mismatch. -/
def needsRebase (items : List (Str × Str × Option Nat)) : Bool :=
  items.any (fun it => needsTrailerUpdate it.1 it.2.1 it.2.2)

/-! ## The land command (`src/commands/land.ts`)

The sequence of review-service mutations it issues (base retarget, merge)
and the warnings it logs are modelled as a trace; a thrown error is an
`Except.error` carrying the model of the `StackerError` subclass.  The model
covers the command up to and including the merge of the bottom PR (the
post-merge rebase loop touches only git, not the merge decision the claims
are about), without the `--dry-run` and `--all` modes. -/

/-- The PR status object consumed by the land command's validation. -/
structure PRStatusM where
  mergeable : Bool
  mergeStateStatus : Str
  reviewDecision : Option Str
  checks : List CheckInfo
deriving DecidableEq

/-- The domain errors the land command can throw before merging. -/
inductive LandErr where
  | noPRForCommit (sha : Str)
  | prNotMergeable (pr : Nat) (reason : Str)
  | changesRequested (pr : Nat)
  | reviewRequired (pr : Nat)
  | ciFailed (pr : Nat) (failedChecks : List Str)
  | ciPending (pr : Nat)
deriving DecidableEq

/-- The externally visible actions of the land command up to the merge. -/
inductive LandAction where
  | warnCIFailing (failedChecks : List Str)
  | warnCIPending
  | updatePRBase (pr : Nat) (base : Str)
  | merge (pr : Nat) (title : Str) (body : Str)
deriving DecidableEq

/-- Is this action the merge of the given PR? -/
def isMergeOf (pr : Nat) : LandAction → Bool
  | .merge p _ _ => p = pr
  | _ => false

/-- Is this action a logged warning? -/
def isWarn : LandAction → Bool
  | .warnCIFailing _ => true
  | .warnCIPending => true
  | _ => false

/-- `landCommand` from the pre-merge validation onward: the stack has been
built, `status` is `getPRStatus(bottomEntry.prNumber)` and `bottomMsg` is
`getCommitMessage(bottomEntry.commit.sha)`. -/
def landRun (stack : Stack) (status : PRStatusM) (bottomMsg : Str) (target : Str)
    (force : Bool) : Except LandErr (List LandAction) :=
  match stack.entries with
  | [] => .ok []
  | bottom :: restEntries =>
    match bottom.prNumber with
    | none => .error (.noPRForCommit bottom.commit.sha)
    | some pr =>
      if !status.mergeable then
        .error (.prNotMergeable pr status.mergeStateStatus)
      else if status.reviewDecision = some (str "CHANGES_REQUESTED") then
        .error (.changesRequested pr)
      else if status.reviewDecision = some (str "REVIEW_REQUIRED") then
        .error (.reviewRequired pr)
      else
        let ci := areCIChecksPassing status.checks
        let failedChecks := (ci.checks.filter isFailConclusion).map (·.name)
        if ci.failing && !force then .error (.ciFailed pr failedChecks)
        else if ci.pending && !force then .error (.ciPending pr)
        else
          let warns : List LandAction :=
            (if ci.failing then [.warnCIFailing failedChecks] else []) ++
            (if ci.pending then [.warnCIPending] else [])
          let landTarget := match stack.dependsOn with
            | some d => d.topBranch
            | none => target
          let updates : List LandAction :=
            match restEntries with
            | [] => []
            | next :: _ =>
              match next.prNumber with
              | some n => [.updatePRBase n landTarget]
              | none => []
          let cleanedMessage := stripStackerTrailers bottomMsg
          let ls := splitLines cleanedMessage
          let title := ls.headD [] ++ str " (#" ++ natToStr pr ++ [')']
          let mergeBody :=
            let b := trimStr (joinLines (ls.drop 1))
            if b.isEmpty then [' '] else b
          .ok (warns ++ updates ++ [.merge pr title mergeBody])

/-! ## Well-formedness of trailer entries

`wfKey k` says `k` matches the key group `[A-Za-z][A-Za-z0-9-]*` and `wfVal
v` says `v` matches the value group `(.+)` of the trailer regex on a single
line. -/

/-- Does this string match the trailer-key syntax? -/
def wfKey : Str → Bool
  | [] => false
  | c :: rest => c.isAlpha && rest.all isKeyChar

/-- Does this string match the trailer-value syntax (non-empty, no line
terminators)? -/
def wfVal (v : Str) : Bool := !v.isEmpty && v.all isValueChar

/-- The keys of an association-list map. -/
def keysOf (m : List (Str × Str)) : List Str := m.map Prod.fst

/-- The chain property of a stack's entries: the first entry targets
`prev`, and every later entry targets its predecessor's branch. -/
def chainFrom (prev : Str) : List StackEntry → Prop
  | [] => True
  | e :: rest => e.targetBranch = prev ∧ chainFrom e.branchName rest

/-- The base target of a stack's bottom entry: the dependency's top branch
when present, else the configured target (`dependsOn?.topBranch ?? target`). -/
def bottomTarget (dep : Option StackDependency) (target : Str) : Str :=
  match dep with
  | some d => d.topBranch
  | none => target

/-- First-some choice on options (JS `??` over lookup results). -/
def orO (a b : Option Str) : Option Str :=
  match a with
  | some x => some x
  | none => b

/-! ## Lemmas about the association-list `Map` model -/

theorem orO_none (b : Option Str) : orO none b = b := rfl

theorem orO_some (x : Str) (b : Option Str) : orO (some x) b = some x := rfl

theorem getVal_append (a b : List (Str × Str)) (k : Str) :
    getVal (a ++ b) k = orO (getVal a k) (getVal b k) := by
  induction a with
  | nil => rfl
  | cons p rest ih =>
    obtain ⟨k', v'⟩ := p
    by_cases h : k' = k <;> simp [getVal, h, ih, orO]

theorem getVal_mapSet_self (m : List (Str × Str)) (k v : Str) :
    getVal (mapSet m k v) k = some v := by
  induction m with
  | nil => simp [mapSet, getVal]
  | cons p rest ih =>
    obtain ⟨k', v'⟩ := p
    by_cases h : k' = k <;> simp [mapSet, getVal, h, ih]

theorem getVal_mapSet_ne (m : List (Str × Str)) (k v k' : Str) (h : k' ≠ k) :
    getVal (mapSet m k v) k' = getVal m k' := by
  have h2 : ¬ k = k' := fun hh => h hh.symm
  induction m with
  | nil => simp [mapSet, getVal, h2]
  | cons p rest ih =>
    obtain ⟨k'', v''⟩ := p
    by_cases h3 : k'' = k
    · subst h3
      simp [mapSet, getVal, h2]
    · by_cases h4 : k'' = k' <;> simp [mapSet, getVal, h, h2, h3, h4, ih]

theorem keysOf_mapSet (m : List (Str × Str)) (k v : Str) :
    keysOf (mapSet m k v) = if k ∈ keysOf m then keysOf m else keysOf m ++ [k] := by
  induction m with
  | nil => simp [mapSet, keysOf]
  | cons p rest ih =>
    obtain ⟨k', v'⟩ := p
    by_cases h : k' = k
    · simp [mapSet, keysOf, h]
    · have h2 : ¬ k = k' := fun hh => h hh.symm
      by_cases h3 : k ∈ keysOf rest
      · simp only [keysOf, List.map_cons] at ih ⊢
        simp only [keysOf] at h3
        simp [mapSet, h, h2, h3, ih]
      · simp only [keysOf, List.map_cons] at ih ⊢
        simp only [keysOf] at h3
        simp [mapSet, h, h2, h3, ih]

theorem keysOf_mapSet_nodup (m : List (Str × Str)) (k v : Str)
    (h : (keysOf m).Nodup) : (keysOf (mapSet m k v)).Nodup := by
  rw [keysOf_mapSet]
  by_cases hk : k ∈ keysOf m
  · simpa [hk] using h
  · simp only [hk, if_false]
    simpa [List.nodup_append] using ⟨h, hk⟩

theorem getVal_eq_none_iff (m : List (Str × Str)) (k : Str) :
    getVal m k = none ↔ k ∉ keysOf m := by
  induction m with
  | nil => simp [getVal, keysOf]
  | cons p rest ih =>
    obtain ⟨k', v'⟩ := p
    by_cases h : k' = k <;> (first | (simp [getVal, keysOf, h, ih]; tauto) | simp [getVal, keysOf, h, ih])

theorem getVal_eq_some_iff_mem (m : List (Str × Str)) (k v : Str)
    (hnd : (keysOf m).Nodup) : getVal m k = some v ↔ (k, v) ∈ m := by
  induction m with
  | nil => simp [getVal]
  | cons p rest ih =>
    obtain ⟨k', v'⟩ := p
    simp only [keysOf, List.map_cons, List.nodup_cons] at hnd
    by_cases h : k' = k
    · subst h
      simp only [getVal, if_pos rfl, List.mem_cons]
      constructor
      · rintro h2
        left
        simpa using h2.symm
      · rintro (h2 | h2)
        · simp [Prod.ext_iff] at h2
          simp [h2]
        · exact absurd (List.mem_map_of_mem Prod.fst h2) hnd.1
    · simp only [getVal, if_neg h, List.mem_cons, ih hnd.2]
      constructor
      · exact fun h2 => Or.inr h2
      · rintro (h2 | h2)
        · exact absurd (congrArg Prod.fst h2.symm) h
        · exact h2

theorem getVal_reverse (m : List (Str × Str)) (k : Str)
    (hnd : (keysOf m).Nodup) : getVal m.reverse k = getVal m k := by
  have hndr : (keysOf m.reverse).Nodup := by
    simpa [keysOf, List.map_reverse] using List.nodup_reverse.2 hnd
  cases h : getVal m k with
  | some v =>
    rw [getVal_eq_some_iff_mem _ _ _ hndr, List.mem_reverse]
    exact (getVal_eq_some_iff_mem _ _ _ hnd).1 h
  | none =>
    rw [getVal_eq_none_iff] at h ⊢
    simpa [keysOf, List.map_reverse] using h

theorem orO_assoc (a b c : Option Str) : orO (orO a b) c = orO a (orO b c) := by
  cases a <;> rfl

theorem orO_none_right (a : Option Str) : orO a none = a := by
  cases a <;> rfl

theorem getVal_mapSet (m : List (Str × Str)) (k v k' : Str) :
    getVal (mapSet m k v) k' = orO (getVal [(k, v)] k') (getVal m k') := by
  by_cases h : k = k'
  · subst h
    simp [getVal_mapSet_self, getVal, orO]
  · have h2 : k' ≠ k := fun hh => h hh.symm
    simp [getVal_mapSet_ne m k v k' h2, getVal, h, orO]

theorem getVal_foldl_mapSetStep (ps : List (Str × Str)) (m : List (Str × Str)) (k : Str) :
    getVal (ps.foldl mapSetStep m) k = orO (getVal ps.reverse k) (getVal m k) := by
  induction ps generalizing m with
  | nil => simp [getVal, orO]
  | cons p ps ih =>
    simp only [List.foldl_cons, List.reverse_cons]
    rw [ih, getVal_append, orO_assoc]
    congr 1
    simpa using getVal_mapSet m p.1 p.2 k

theorem getVal_foldl_insPair (ps : List (Str × Str)) (m : List (Str × Str)) (k : Str) :
    getVal (ps.foldl insPair m) k = orO (getVal m k) (getVal ps k) := by
  induction ps generalizing m with
  | nil => simp [getVal, orO_none_right]
  | cons p ps ih =>
    simp only [List.foldl_cons]
    rw [ih]
    by_cases hs : (getVal m p.1).isSome
    · obtain ⟨w, hw⟩ := Option.isSome_iff_exists.1 hs
      by_cases h : p.1 = k
      · subst h
        simp [insPair, hs, hw, getVal, orO]
      · have h2 : ¬ p.1 = k := h
        obtain ⟨k1, v1⟩ := p
        simp only at h2
        simp [insPair, hs, getVal, h2, orO]
    · have hn : getVal m p.1 = none := Option.not_isSome_iff_eq_none.1 hs
      by_cases h : p.1 = k
      · subst h
        simp [insPair, hs, getVal_append, hn, getVal, orO]
      · obtain ⟨k1, v1⟩ := p
        simp only at h hs
        have h5 : getVal (m ++ [(k1, v1)]) k = getVal m k := by
          rw [getVal_append]
          simp [getVal, h, orO_none_right]
        simp [insPair, hs, h5, getVal, h]

theorem keysOf_foldl_mapSetStep_nodup (ps : List (Str × Str)) (m : List (Str × Str))
    (h : (keysOf m).Nodup) : (keysOf (ps.foldl mapSetStep m)).Nodup := by
  induction ps generalizing m with
  | nil => exact h
  | cons p ps ih => exact ih _ (keysOf_mapSet_nodup _ _ _ h)

theorem mapSet_eq_self (m : List (Str × Str)) (k v : Str)
    (hnd : (keysOf m).Nodup) (h : getVal m k = some v) : mapSet m k v = m := by
  induction m with
  | nil => simp [getVal] at h
  | cons p rest ih =>
    obtain ⟨k', v'⟩ := p
    simp only [keysOf, List.map_cons, List.nodup_cons] at hnd
    by_cases h2 : k' = k
    · subst h2
      have hv : v' = v := by simpa [getVal] using h
      simp [mapSet, hv]
    · simp only [getVal, if_neg h2] at h
      simp [mapSet, h2, ih hnd.2 h]

theorem foldl_mapSetStep_id (ps : List (Str × Str)) (m : List (Str × Str))
    (hnd : (keysOf m).Nodup) (h : ∀ p ∈ ps, getVal m p.1 = some p.2) :
    ps.foldl mapSetStep m = m := by
  induction ps with
  | nil => rfl
  | cons p ps ih =>
    have hm : mapSetStep m p = m := mapSet_eq_self m p.1 p.2 hnd (h p (List.mem_cons_self _ _))
    simp only [List.foldl_cons, hm]
    exact ih (fun q hq => h q (List.mem_cons_of_mem _ hq))

theorem mapSet_of_not_mem (m : List (Str × Str)) (k v : Str)
    (h : getVal m k = none) : mapSet m k v = m ++ [(k, v)] := by
  induction m with
  | nil => simp [mapSet]
  | cons p rest ih =>
    obtain ⟨k', v'⟩ := p
    by_cases h2 : k' = k
    · simp [getVal, h2] at h
    · simp only [getVal, if_neg h2] at h
      simp [mapSet, h2, ih h]

theorem foldl_mapSetStep_append (ps : List (Str × Str)) (m : List (Str × Str))
    (hnd : (keysOf ps).Nodup) (h : ∀ k ∈ keysOf ps, getVal m k = none) :
    ps.foldl mapSetStep m = m ++ ps := by
  induction ps generalizing m with
  | nil => simp
  | cons p ps ih =>
    simp only [keysOf, List.map_cons, List.nodup_cons] at hnd
    have h1 : mapSetStep m p = m ++ [p] := by
      have := mapSet_of_not_mem m p.1 p.2 (h p.1 (by simp [keysOf]))
      simpa [mapSetStep] using this
    simp only [List.foldl_cons, h1]
    rw [ih (m ++ [p]) hnd.2]
    · simp
    · intro k hk
      rw [getVal_append]
      have hne : p.1 ≠ k := fun hh => hnd.1 (hh ▸ hk)
      have hm : getVal m k = none := h k (List.mem_cons_of_mem _ hk)
      obtain ⟨k1, v1⟩ := p
      simp only at hne
      simp [hm, getVal, hne, orO]

theorem all_mapSet (P : Str × Str → Prop) (m : List (Str × Str)) (k v : Str)
    (hm : ∀ q ∈ m, P q) (hp : P (k, v)) : ∀ q ∈ mapSet m k v, P q := by
  induction m with
  | nil => simpa [mapSet] using hp
  | cons p rest ih =>
    obtain ⟨k', v'⟩ := p
    by_cases h2 : k' = k
    · intro q hq
      simp only [mapSet, if_pos h2, List.mem_cons] at hq
      rcases hq with hq | hq
      · exact hq ▸ hp
      · exact hm q (List.mem_cons_of_mem _ hq)
    · intro q hq
      simp only [mapSet, if_neg h2, List.mem_cons] at hq
      rcases hq with hq | hq
      · exact hq ▸ hm _ (List.mem_cons_self _ _)
      · exact ih (fun r hr => hm r (List.mem_cons_of_mem _ hr)) q hq

theorem all_foldl_mapSetStep (P : Str × Str → Prop) (ps : List (Str × Str))
    (m : List (Str × Str)) (hm : ∀ q ∈ m, P q) (hp : ∀ q ∈ ps, P q) :
    ∀ q ∈ ps.foldl mapSetStep m, P q := by
  induction ps generalizing m with
  | nil => exact hm
  | cons p ps ih =>
    simp only [List.foldl_cons]
    refine ih _ ?_ (fun q hq => hp q (List.mem_cons_of_mem _ hq))
    have : P (p.1, p.2) := by simpa using hp p (List.mem_cons_self _ _)
    exact all_mapSet P m p.1 p.2 hm this

/-! ## List scanning helpers -/

theorem takeWhile_append_of_all {α : Type} (p : α → Bool) (l1 : List α) (y : α)
    (l2 : List α) (h1 : ∀ x ∈ l1, p x = true) (hy : p y = false) :
    (l1 ++ y :: l2).takeWhile p = l1 := by
  induction l1 with
  | nil => simp [List.takeWhile, hy]
  | cons a l ih =>
    have ha : p a = true := h1 a (List.mem_cons_self _ _)
    simp only [List.cons_append, List.takeWhile_cons, ha, if_true]
    rw [ih (fun x hx => h1 x (List.mem_cons_of_mem _ hx))]

theorem dropWhile_append_of_all {α : Type} (p : α → Bool) (l1 : List α) (y : α)
    (l2 : List α) (h1 : ∀ x ∈ l1, p x = true) (hy : p y = false) :
    (l1 ++ y :: l2).dropWhile p = y :: l2 := by
  induction l1 with
  | nil => simp [List.dropWhile, hy]
  | cons a l ih =>
    have ha : p a = true := h1 a (List.mem_cons_self _ _)
    simp only [List.cons_append, List.dropWhile_cons, ha, if_true]
    exact ih (fun x hx => h1 x (List.mem_cons_of_mem _ hx))

theorem all_of_takeWhile {α : Type} (p : α → Bool) (l : List α) :
    ∀ x ∈ l.takeWhile p, p x = true := by
  induction l with
  | nil => simp
  | cons a l ih =>
    by_cases ha : p a
    · intro x hx
      rw [List.takeWhile_cons, if_pos ha] at hx
      rcases List.mem_cons.1 hx with hx | hx
      · exact hx ▸ ha
      · exact ih x hx
    · intro x hx
      rw [List.takeWhile_cons, if_neg ha] at hx
      exact absurd hx (List.not_mem_nil x)

theorem dropWhile_dropWhile {α : Type} (p : α → Bool) (l : List α) :
    (l.dropWhile p).dropWhile p = l.dropWhile p := by
  induction l with
  | nil => rfl
  | cons a l ih =>
    by_cases ha : p a
    · simp [List.dropWhile_cons, ha, ih]
    · simp [List.dropWhile_cons, ha]

theorem take_len_append {α : Type} (a b : List α) (k : Nat) :
    (a ++ b).take (a.length + k) = a ++ b.take k := by
  induction a with
  | nil => simp
  | cons x a ih => simpa [Nat.succ_add] using ih

theorem drop_len_append {α : Type} (a b : List α) (k : Nat) :
    (a ++ b).drop (a.length + k) = b.drop k := by
  induction a with
  | nil => simp
  | cons x a ih => simp [Nat.succ_add, ih]

/-! ## Lemmas about the trailer-line matcher -/

theorem matchTrailer_lineOf (k v : Str) (hk : wfKey k = true) (hv : wfVal v = true) :
    matchTrailer (lineOf (k, v)) = some (k, v) := by
  cases k with
  | nil => simp [wfKey] at hk
  | cons c rest =>
    simp only [wfKey, Bool.and_eq_true, List.all_eq_true] at hk
    have hvA : v.all isValueChar = true := by
      simp only [wfVal, Bool.and_eq_true] at hv
      exact hv.2
    have hvne : v ≠ [] := by
      intro hveq
      subst hveq
      simp [wfVal, List.isEmpty] at hv
    have hcolon : isKeyChar ':' = false := by decide
    have hdw : (rest ++ ':' :: ' ' :: v).dropWhile isKeyChar = ':' :: ' ' :: v :=
      dropWhile_append_of_all isKeyChar rest ':' (' ' :: v) hk.2 hcolon
    have htw : (rest ++ ':' :: ' ' :: v).takeWhile isKeyChar = rest :=
      takeWhile_append_of_all isKeyChar rest ':' (' ' :: v) hk.2 hcolon
    rw [show lineOf (c :: rest, v) = c :: (rest ++ ':' :: ' ' :: v) from rfl, matchTrailer,
      if_pos hk.1, hdw]
    simp only [htw]
    rw [if_pos ⟨trivial, trivial, hvne, hvA⟩]

theorem matchTrailer_eq_some (l k v : Str) (h : matchTrailer l = some (k, v)) :
    l = lineOf (k, v) ∧ wfKey k = true ∧ wfVal v = true := by
  cases l with
  | nil => simp [matchTrailer] at h
  | cons c rest =>
    rw [matchTrailer] at h
    split at h
    next hc =>
      split at h
      next c1 c2 t2 hdw =>
        split at h
        next hg =>
          obtain ⟨h1, h2⟩ := Prod.mk.injEq .. ▸ Option.some_inj.1 h
          obtain ⟨hg1, hg2, hg3, hg4⟩ := hg
          subst hg1
          subst hg2
          subst h1
          subst h2
          refine ⟨?_, ?_, ?_⟩
          · have hsplit := List.takeWhile_append_dropWhile (p := isKeyChar) (l := rest)
            rw [hdw] at hsplit
            simp only [lineOf, List.cons_append]
            rw [hsplit]
          · simp only [wfKey, hc, Bool.true_and, List.all_eq_true]
            exact fun x hx => all_of_takeWhile isKeyChar rest x hx
          · simp [wfVal, hg3, hg4, List.isEmpty_eq_false]
        next => simp at h
      next => simp at h
    next => simp at h

theorem matchTrailer_isSome_shape (l : Str) (h : (matchTrailer l).isSome = true) :
    ∃ p, matchTrailer l = some p ∧ l = lineOf p ∧ wfKey p.1 = true ∧ wfVal p.2 = true := by
  obtain ⟨⟨k, v⟩, hp⟩ := Option.isSome_iff_exists.1 h
  obtain ⟨h1, h2, h3⟩ := matchTrailer_eq_some l k v hp
  exact ⟨(k, v), hp, h1, h2, h3⟩

theorem lineOf_ne_nil (k v : Str) (hk : wfKey k = true) : lineOf (k, v) ≠ [] := by
  cases k with
  | nil => simp [wfKey] at hk
  | cons c rest => simp [lineOf]

theorem newline_not_mem_lineOf (k v : Str) (hk : wfKey k = true) (hv : wfVal v = true) :
    '\n' ∉ lineOf (k, v) := by
  simp only [wfKey] at hk
  intro hmem
  simp only [lineOf, List.mem_append, List.mem_cons] at hmem
  rcases hmem with hmem | hmem | hmem | hmem
  · cases k with
    | nil => simp at hmem
    | cons c rest =>
      simp only [Bool.and_eq_true, List.all_eq_true] at hk
      rcases List.mem_cons.1 hmem with hh | hh
      · rw [← hh] at hk
        exact absurd hk.1 (by decide)
      · have := hk.2 _ hh
        rw [isKeyChar] at this
        simp at this
  · exact absurd hmem (by decide)
  · exact absurd hmem (by decide)
  · simp only [wfVal, Bool.and_eq_true, List.all_eq_true] at hv
    have := hv.2 _ hmem
    rw [isValueChar] at this
    simp at this

/-! ## The parse scan on a terminal trailer block -/

theorem parseLoop_block (ps : List (Str × Str))
    (hwf : ∀ p ∈ ps, wfKey p.1 = true ∧ wfVal p.2 = true) (hne : ps ≠ [])
    (rest : List Str) (acc : List (Str × Str)) (b : Bool) :
    parseLoop (ps.map lineOf ++ [] :: rest) b acc = ps.foldl insPair acc := by
  induction ps generalizing acc b with
  | nil => exact absurd rfl hne
  | cons p ps ih =>
    obtain ⟨k, v⟩ := p
    have hw := hwf (k, v) (List.mem_cons_self _ _)
    have hmt : matchTrailer (lineOf (k, v)) = some (k, v) := matchTrailer_lineOf k v hw.1 hw.2
    have hie : (lineOf (k, v)).isEmpty = false := by
      rw [List.isEmpty_eq_false]
      exact lineOf_ne_nil k v hw.1
    simp only [List.map_cons, List.cons_append, parseLoop, hie, Bool.false_eq_true, if_false,
      hmt, List.foldl_cons]
    cases ps with
    | nil => simp [parseLoop]
    | cons q qs =>
      exact ih (fun r hr => hwf r (List.mem_cons_of_mem _ hr)) (by simp) _ _

theorem parseTrailersLines_block (body : List Str) (ps : List (Str × Str))
    (hwf : ∀ p ∈ ps, wfKey p.1 = true ∧ wfVal p.2 = true) (hne : ps ≠ []) :
    parseTrailersLines (body ++ [[]] ++ ps.map lineOf) = ps.reverse.foldl insPair [] := by
  have hrev : (body ++ [[]] ++ ps.map lineOf).reverse =
      ps.reverse.map lineOf ++ [] :: body.reverse := by
    simp [List.reverse_append, List.map_reverse]
  rw [parseTrailersLines, hrev]
  exact parseLoop_block ps.reverse
    (fun p hp => hwf p (List.mem_reverse.1 hp))
    (by simpa using hne) body.reverse [] false

theorem getVal_parseTrailersLines_block (body : List Str) (ps : List (Str × Str))
    (hwf : ∀ p ∈ ps, wfKey p.1 = true ∧ wfVal p.2 = true) (hne : ps ≠ []) (k : Str) :
    getVal (parseTrailersLines (body ++ [[]] ++ ps.map lineOf)) k = getVal ps.reverse k := by
  rw [parseTrailersLines_block body ps hwf hne, getVal_foldl_insPair]
  simp [getVal, orO]

/-! ## The setTrailers scan on a terminal trailer block -/

theorem trailerRun_append_cons (a : List Str) (y : Str) (c : List Str)
    (ha : ∀ l ∈ a, (matchTrailer l).isSome = true) (hy : matchTrailer y = none) :
    trailerRun (a ++ y :: c) = a.length := by
  induction a with
  | nil => simp [trailerRun, hy]
  | cons x a ih =>
    have hx := ha x (List.mem_cons_self _ _)
    simp only [List.cons_append, trailerRun, hx, if_true, List.length_cons]
    rw [show a.append (y :: c) = a ++ y :: c from rfl,
      ih (fun l hl => ha l (List.mem_cons_of_mem _ hl))]

theorem trailerStartIndex_block (body : List Str) (ps : List (Str × Str))
    (hwf : ∀ p ∈ ps, wfKey p.1 = true ∧ wfVal p.2 = true) (hne : ps ≠ []) :
    trailerStartIndex (body ++ [[]] ++ ps.map lineOf) = body.length + 1 := by
  obtain ⟨q, qs, hq⟩ := List.exists_cons_of_ne_nil (by simpa using hne :
    ps.reverse ≠ [])
  have hrev : (body ++ [[]] ++ ps.map lineOf).reverse =
      ps.reverse.map lineOf ++ [] :: body.reverse := by
    simp [List.reverse_append, List.map_reverse]
  have hqwf := hwf q (List.mem_reverse.1 (hq ▸ List.mem_cons_self q qs))
  have hqne : (lineOf q).isEmpty = false := by
    rw [List.isEmpty_eq_false]
    obtain ⟨k, v⟩ := q
    exact lineOf_ne_nil k v hqwf.1
  have htk : ((body ++ [[]] ++ ps.map lineOf).reverse.takeWhile List.isEmpty) = [] := by
    rw [hrev, hq]
    simp [List.takeWhile_cons, hqne]
  have hdr : ((body ++ [[]] ++ ps.map lineOf).reverse.dropWhile List.isEmpty) =
      ps.reverse.map lineOf ++ [] :: body.reverse := by
    rw [hrev, hq]
    simp [List.dropWhile_cons, hqne]
  have hall : ∀ l ∈ ps.reverse.map lineOf, (matchTrailer l).isSome = true := by
    intro l hl
    obtain ⟨p, hp, hlp⟩ := List.mem_map.1 hl
    obtain ⟨k, v⟩ := p
    have hw := hwf (k, v) (List.mem_reverse.1 hp)
    rw [← hlp, matchTrailer_lineOf k v hw.1 hw.2]
    rfl
  have hrun : trailerRun (ps.reverse.map lineOf ++ [] :: body.reverse) = ps.length := by
    rw [trailerRun_append_cons (ps.reverse.map lineOf) [] body.reverse hall (by rfl)]
    simp
  have hlen : (body ++ [[]] ++ ps.map lineOf).length = body.length + 1 + ps.length := by
    simp [List.length_append]
    omega
  have hpsne : ps.length ≠ 0 := fun hz => hne (List.length_eq_zero.1 hz)
  rw [trailerStartIndex]
  simp only [htk, hdr, hrun, hlen, List.length_nil]
  rw [if_neg hpsne]
  omega

theorem foldl_lineStep_map (ps : List (Str × Str))
    (hwf : ∀ p ∈ ps, wfKey p.1 = true ∧ wfVal p.2 = true) (acc : List (Str × Str)) :
    (ps.map lineOf).foldl lineStep acc = ps.foldl mapSetStep acc := by
  induction ps generalizing acc with
  | nil => rfl
  | cons p ps ih =>
    obtain ⟨k, v⟩ := p
    have hw := hwf (k, v) (List.mem_cons_self _ _)
    simp only [List.map_cons, List.foldl_cons, lineStep,
      matchTrailer_lineOf k v hw.1 hw.2]
    exact ih (fun r hr => hwf r (List.mem_cons_of_mem _ hr)) _

/-! ## Trailing-blank-line removal -/

theorem dropTrailingEmpties_append_empty (b : List Str) :
    dropTrailingEmpties (b ++ [[]]) = dropTrailingEmpties b := by
  simp [dropTrailingEmpties, List.reverse_append, List.dropWhile_cons, List.isEmpty]

theorem dropTrailingEmpties_idem (b : List Str) :
    dropTrailingEmpties (dropTrailingEmpties b) = dropTrailingEmpties b := by
  simp [dropTrailingEmpties, List.reverse_reverse, dropWhile_dropWhile]

/-! ## Splitting is a left inverse of joining -/

theorem splitLines_ne_nil (s : Str) : splitLines s ≠ [] := by
  induction s with
  | nil => simp [splitLines]
  | cons c rest ih =>
    rcases hsp : splitLines rest with _ | ⟨l, ls⟩
    · exact absurd hsp ih
    · by_cases hc : c = '\n' <;> simp [splitLines, hsp, hc]

theorem no_newline_of_mem_splitLines (s : Str) (l : Str) (hl : l ∈ splitLines s) :
    '\n' ∉ l := by
  induction s generalizing l with
  | nil =>
    simp only [splitLines, List.mem_singleton] at hl
    simp [hl]
  | cons c rest ih =>
    rcases hsp : splitLines rest with _ | ⟨l0, ls⟩
    · exact absurd hsp (splitLines_ne_nil rest)
    · simp only [splitLines, hsp] at hl
      by_cases hc : c = '\n'
      · rw [if_pos hc] at hl
        rcases List.mem_cons.1 hl with hl | hl
        · simp [hl]
        · exact ih l (hsp ▸ hl)
      · rw [if_neg hc] at hl
        rcases List.mem_cons.1 hl with hl | hl
        · subst hl
          intro hmem
          rcases List.mem_cons.1 hmem with hmem | hmem
          · exact hc hmem.symm
          · exact ih l0 (hsp ▸ List.mem_cons_self _ _) hmem
        · exact ih l (hsp ▸ List.mem_cons_of_mem _ hl)

theorem splitLines_no_newline (s : Str) (h : '\n' ∉ s) : splitLines s = [s] := by
  induction s with
  | nil => rfl
  | cons c rest ih =>
    have hc : c ≠ '\n' := fun hh => h (hh ▸ List.mem_cons_self _ _)
    have hr : splitLines rest = [rest] := ih (fun hh => h (List.mem_cons_of_mem _ hh))
    simp [splitLines, hr, hc]

theorem splitLines_append_newline (x s : Str) (hx : '\n' ∉ x) :
    splitLines (x ++ '\n' :: s) = x :: splitLines s := by
  induction x with
  | nil =>
    rcases hsp : splitLines s with _ | ⟨l, ls⟩
    · exact absurd hsp (splitLines_ne_nil s)
    · simp [splitLines, hsp]
  | cons c rest ih =>
    have hc : c ≠ '\n' := fun hh => hx (hh ▸ List.mem_cons_self _ _)
    have hr := ih (fun hh => hx (List.mem_cons_of_mem _ hh))
    rcases hsp : splitLines (rest ++ '\n' :: s) with _ | ⟨l, ls⟩
    · exact absurd hsp (splitLines_ne_nil _)
    · rw [hsp] at hr
      rcases hsp2 : splitLines s with _ | ⟨l2, ls2⟩
      · exact absurd hsp2 (splitLines_ne_nil s)
      · rw [hsp2] at hr
        obtain ⟨hl, hls⟩ := List.cons.injEq .. ▸ hr
        simp [List.cons_append, splitLines, List.append_eq, hsp, hc, hl, hls]

theorem splitLines_joinLines (ls : List Str) (hne : ls ≠ [])
    (h : ∀ l ∈ ls, '\n' ∉ l) : splitLines (joinLines ls) = ls := by
  induction ls with
  | nil => exact absurd rfl hne
  | cons x rest ih =>
    cases rest with
    | nil =>
      exact splitLines_no_newline x (h x (List.mem_cons_self _ _))
    | cons y rest2 =>
      have hx : '\n' ∉ x := h x (List.mem_cons_self _ _)
      have hj : joinLines (x :: y :: rest2) = x ++ '\n' :: joinLines (y :: rest2) := by
        simp [joinLines, joinWith]
      rw [hj, splitLines_append_newline x _ hx,
        ih (by simp) (fun l hl => h l (List.mem_cons_of_mem _ hl))]

/-! ## The scanned region of `setTrailers` on arbitrary input -/

theorem trailerRun_le_length (ls : List Str) : trailerRun ls ≤ ls.length := by
  induction ls with
  | nil => simp [trailerRun]
  | cons l ls ih =>
    by_cases h : (matchTrailer l).isSome = true <;>
      (first | (simp [trailerRun, h]; omega) | simp [trailerRun, h])

theorem trailerRun_take_all (ls : List Str) :
    ∀ l ∈ ls.take (trailerRun ls), (matchTrailer l).isSome = true := by
  induction ls with
  | nil => simp
  | cons x ls ih =>
    by_cases h : (matchTrailer x).isSome = true
    · simp only [trailerRun, h, if_true, List.take_succ_cons]
      intro l hl
      rcases List.mem_cons.1 hl with hl | hl
      · exact hl ▸ h
      · exact ih l hl
    · simp [trailerRun, h]

theorem mapSet_ne_nil (m : List (Str × Str)) (k v : Str) : mapSet m k v ≠ [] := by
  cases m with
  | nil => simp [mapSet]
  | cons p rest =>
    obtain ⟨k', v'⟩ := p
    by_cases h : k' = k <;> simp [mapSet, h]

theorem foldl_lineStep_preserves_ne (ls : List Str) (acc : List (Str × Str))
    (h : acc ≠ []) : ls.foldl lineStep acc ≠ [] := by
  induction ls generalizing acc with
  | nil => exact h
  | cons l ls ih =>
    simp only [List.foldl_cons]
    refine ih _ ?_
    rw [lineStep]
    cases hm : matchTrailer l with
    | none => exact h
    | some p =>
      obtain ⟨k, v⟩ := p
      exact mapSet_ne_nil acc k v

theorem foldl_lineStep_ne_nil (ls : List Str) (acc : List (Str × Str))
    (hne : ls ≠ []) (hall : ∀ l ∈ ls, (matchTrailer l).isSome = true) :
    ls.foldl lineStep acc ≠ [] := by
  cases ls with
  | nil => exact absurd rfl hne
  | cons l ls =>
    simp only [List.foldl_cons]
    refine foldl_lineStep_preserves_ne ls _ ?_
    have hl := hall l (List.mem_cons_self _ _)
    obtain ⟨⟨k, v⟩, hp⟩ := Option.isSome_iff_exists.1 hl
    rw [lineStep, hp]
    exact mapSet_ne_nil acc k v

theorem foldl_lineStep_empties (es : List Str) (acc : List (Str × Str))
    (h : ∀ l ∈ es, l = []) : es.foldl lineStep acc = acc := by
  induction es generalizing acc with
  | nil => rfl
  | cons l es ih =>
    have hl : l = [] := h l (List.mem_cons_self _ _)
    subst hl
    simp only [List.foldl_cons, lineStep, matchTrailer]
    exact ih _ (fun x hx => h x (List.mem_cons_of_mem _ hx))

theorem all_foldl_lineStep (ls : List Str) (acc : List (Str × Str))
    (hacc : ∀ p ∈ acc, wfKey p.1 = true ∧ wfVal p.2 = true) :
    ∀ p ∈ ls.foldl lineStep acc, wfKey p.1 = true ∧ wfVal p.2 = true := by
  induction ls generalizing acc with
  | nil => exact hacc
  | cons l ls ih =>
    simp only [List.foldl_cons]
    refine ih _ ?_
    rw [lineStep]
    cases hm : matchTrailer l with
    | none => exact hacc
    | some p =>
      obtain ⟨k, v⟩ := p
      obtain ⟨_, hk, hv⟩ := matchTrailer_eq_some l k v hm
      exact all_mapSet _ acc k v hacc ⟨hk, hv⟩

theorem keysOf_foldl_lineStep_nodup (ls : List Str) (acc : List (Str × Str))
    (hacc : (keysOf acc).Nodup) : (keysOf (ls.foldl lineStep acc)).Nodup := by
  induction ls generalizing acc with
  | nil => exact hacc
  | cons l ls ih =>
    simp only [List.foldl_cons]
    refine ih _ ?_
    rw [lineStep]
    cases hm : matchTrailer l with
    | none => exact hacc
    | some p =>
      obtain ⟨k, v⟩ := p
      exact keysOf_mapSet_nodup acc k v hacc

theorem mem_of_mem_dropTrailingEmpties (ls : List Str) (x : Str)
    (h : x ∈ dropTrailingEmpties ls) : x ∈ ls := by
  rw [dropTrailingEmpties, List.mem_reverse] at h
  have h2 := (List.dropWhile_sublist (l := ls.reverse) (p := List.isEmpty)).subset h
  exact List.mem_reverse.1 h2

/-- The take/drop decomposition of the line list at `trailerStartIndex`,
when a trailer block was found: the kept part is the reversed remainder of
the scan and the dropped region is the matched run plus the trailing blank
lines. -/
theorem take_drop_at_trailerStartIndex (lines : List Str)
    (hc : trailerRun (lines.reverse.dropWhile List.isEmpty) ≠ 0) :
    lines.take (trailerStartIndex lines) =
      ((lines.reverse.dropWhile List.isEmpty).drop
        (trailerRun (lines.reverse.dropWhile List.isEmpty))).reverse ∧
    lines.drop (trailerStartIndex lines) =
      ((lines.reverse.dropWhile List.isEmpty).take
        (trailerRun (lines.reverse.dropWhile List.isEmpty))).reverse ++
      (lines.reverse.takeWhile List.isEmpty).reverse := by
  set E := lines.reverse.takeWhile List.isEmpty with hE
  set R := lines.reverse.dropWhile List.isEmpty with hR
  set c := trailerRun R with hcdef
  have hsplit : lines.reverse = E ++ R :=
    (List.takeWhile_append_dropWhile (p := List.isEmpty) (l := lines.reverse)).symm
  have hlines : lines = (R.drop c).reverse ++ ((R.take c).reverse ++ E.reverse) := by
    have h1 : lines = (E ++ R).reverse := by
      rw [← hsplit, List.reverse_reverse]
    rw [h1, List.reverse_append, ← List.take_append_drop c R, List.reverse_append]
    simp [List.take_append_drop]
  have hcle : c ≤ R.length := trailerRun_le_length R
  have hlen : lines.length = E.length + R.length := by
    have := congrArg List.length hsplit
    simpa using this
  have htsi : trailerStartIndex lines = R.length - c := by
    rw [trailerStartIndex, ← hE, ← hR, ← hcdef, if_neg hc]
    omega
  have hfrontlen : ((R.drop c).reverse).length = R.length - c := by
    simp
  constructor
  · rw [htsi, ← hfrontlen]
    conv_lhs => rw [hlines]
    rw [show ((R.drop c).reverse).length = ((R.drop c).reverse).length + 0 from rfl,
      take_len_append]
    simp
  · rw [htsi, ← hfrontlen]
    conv_lhs => rw [hlines]
    rw [show ((R.drop c).reverse).length = ((R.drop c).reverse).length + 0 from rfl,
      drop_len_append]
    simp

/-! ## Behaviour of `setTrailers` -/

theorem setLines_no_newline (lines : List Str) (t : List (Str × Str))
    (hln : ∀ l ∈ lines, '\n' ∉ l)
    (hwt : ∀ p ∈ t, wfKey p.1 = true ∧ wfVal p.2 = true) :
    ∀ l ∈ setTrailersLines lines t, '\n' ∉ l := by
  have hexwf := all_foldl_lineStep (lines.drop (trailerStartIndex lines)) [] (by simp)
  have hmwf := all_foldl_mapSetStep _ t _ hexwf hwt
  intro l hl
  have hbody : ∀ x ∈ dropTrailingEmpties (lines.take (trailerStartIndex lines)), '\n' ∉ x :=
    fun x hx => hln x (List.take_subset _ _ (mem_of_mem_dropTrailingEmpties _ _ hx))
  simp only [setTrailersLines] at hl
  split at hl
  · exact hbody l hl
  · rcases List.mem_append.1 hl with hl | hl
    · rcases List.mem_append.1 hl with hl | hl
      · exact hbody l hl
      · simp only [List.mem_singleton] at hl
        simp [hl]
    · obtain ⟨p, hp, hlp⟩ := List.mem_map.1 hl
      obtain ⟨k, v⟩ := p
      have hw := hmwf (k, v) hp
      exact hlp ▸ newline_not_mem_lineOf k v hw.1 hw.2

theorem setLines_on_block (body : List Str) (ps : List (Str × Str))
    (hwf : ∀ p ∈ ps, wfKey p.1 = true ∧ wfVal p.2 = true) (hne : ps ≠ [])
    (hbody : dropTrailingEmpties body = body)
    (hnd : (keysOf ps).Nodup)
    (t : List (Str × Str))
    (ht : ∀ p ∈ t, getVal ps p.1 = some p.2) :
    setTrailersLines (body ++ [[]] ++ ps.map lineOf) t = body ++ [[]] ++ ps.map lineOf := by
  have htsi := trailerStartIndex_block body ps hwf hne
  have hlen : body.length + 1 = (body ++ [[]]).length + 0 := by simp
  have hdrop : (body ++ [[]] ++ ps.map lineOf).drop (body.length + 1) = ps.map lineOf := by
    rw [hlen, drop_len_append]
    rfl
  have htake : (body ++ [[]] ++ ps.map lineOf).take (body.length + 1) = body ++ [[]] := by
    rw [hlen, take_len_append]
    simp
  have hex : (ps.map lineOf).foldl lineStep [] = ps := by
    rw [foldl_lineStep_map ps hwf []]
    have := foldl_mapSetStep_append ps [] hnd (fun k _ => rfl)
    simpa using this
  have hmerged : t.foldl mapSetStep ps = ps := foldl_mapSetStep_id t ps hnd ht
  have hbody2 : dropTrailingEmpties (body ++ [[]]) = body := by
    rw [dropTrailingEmpties_append_empty, hbody]
  have hmLne : (ps.map lineOf).isEmpty = false := by
    rw [List.isEmpty_eq_false]
    simp [hne]
  simp only [setTrailersLines, htsi, hdrop, htake, hex, hmerged, hbody2, hmLne,
    Bool.false_eq_true, if_false]

theorem setLines_idem (lines : List Str) (t : List (Str × Str))
    (hwt : ∀ p ∈ t, wfKey p.1 = true ∧ wfVal p.2 = true)
    (hndt : (keysOf t).Nodup) :
    setTrailersLines (setTrailersLines lines t) t = setTrailersLines lines t := by
  have hexwf := all_foldl_lineStep (lines.drop (trailerStartIndex lines)) [] (by simp)
  have hexnd := keysOf_foldl_lineStep_nodup (lines.drop (trailerStartIndex lines)) []
    (by simp [keysOf])
  have hmwf := all_foldl_mapSetStep _ t _ hexwf hwt
  have hmnd := keysOf_foldl_mapSetStep_nodup t _ hexnd
  set existing := (lines.drop (trailerStartIndex lines)).foldl lineStep [] with hexdef
  set merged := t.foldl mapSetStep existing with hmdef
  set body := dropTrailingEmpties (lines.take (trailerStartIndex lines)) with hbdef
  have hout : setTrailersLines lines t =
      if (merged.map lineOf).isEmpty then body else body ++ [[]] ++ merged.map lineOf := rfl
  have hts : ∀ p ∈ t, getVal merged p.1 = some p.2 := by
    intro p hp
    rw [hmdef, getVal_foldl_mapSetStep]
    have h1 : getVal t.reverse p.1 = some p.2 := by
      rw [getVal_reverse t p.1 hndt]
      exact (getVal_eq_some_iff_mem t p.1 p.2 hndt).2 (by simpa using hp)
    rw [h1]
    rfl
  by_cases hm : merged = []
  · have ht : t = [] := by
      cases t with
      | nil => rfl
      | cons p t' =>
        exfalso
        have hval := hts p (List.mem_cons_self _ _)
        rw [hm] at hval
        simp [getVal] at hval
    subst ht
    have hexnil : existing = [] := by
      have : merged = existing := hmdef
      rw [← this, hm]
    have hc : trailerRun (lines.reverse.dropWhile List.isEmpty) = 0 := by
      by_contra hcne
      obtain ⟨_, hdropeq⟩ := take_drop_at_trailerStartIndex lines hcne
      have hne2 : existing ≠ [] := by
        rw [hexdef, hdropeq, List.foldl_append]
        apply foldl_lineStep_preserves_ne
        apply foldl_lineStep_ne_nil
        · have hlen : ((lines.reverse.dropWhile List.isEmpty).take
              (trailerRun (lines.reverse.dropWhile List.isEmpty))).length =
              trailerRun (lines.reverse.dropWhile List.isEmpty) := by
            rw [List.length_take]
            exact Nat.min_eq_left (trailerRun_le_length _)
          intro hnil
          rw [List.reverse_eq_nil_iff.1 hnil] at hlen
          simp at hlen
          exact hcne hlen.symm
        · intro l hl
          have := trailerRun_take_all (lines.reverse.dropWhile List.isEmpty) l
            (List.mem_reverse.1 hl)
          exact this
      exact hne2 hexnil
    have htsi : trailerStartIndex lines = lines.length := by
      rw [trailerStartIndex, if_pos hc]
    have hbody : body = dropTrailingEmpties lines := by
      rw [hbdef, htsi, List.take_length]
    have houtb : setTrailersLines lines [] = body := by
      rw [hout]
      simp [hm]
    rw [houtb]
    have hbrev : body.reverse = lines.reverse.dropWhile List.isEmpty := by
      rw [hbody, dropTrailingEmpties, List.reverse_reverse]
    have hc2 : trailerRun (body.reverse.dropWhile List.isEmpty) = 0 := by
      rw [hbrev, dropWhile_dropWhile, ← hbrev]
      rw [hbrev]
      exact hc
    have htsi2 : trailerStartIndex body = body.length := by
      rw [trailerStartIndex, if_pos hc2]
    have hbody3 : dropTrailingEmpties body = body := by
      rw [hbody, dropTrailingEmpties_idem]
    simp only [setTrailersLines, htsi2, List.take_length, List.drop_length,
      List.foldl_nil, List.map_nil, List.isEmpty_nil, if_true, hbody3]
  · have hmne : (merged.map lineOf).isEmpty = false := by
      rw [List.isEmpty_eq_false]
      simp [hm]
    have hbody2 : dropTrailingEmpties body = body := by
      rw [hbdef, dropTrailingEmpties_idem]
    have houtb : setTrailersLines lines t = body ++ [[]] ++ merged.map lineOf := by
      rw [hout, hmne]
      simp
    rw [houtb]
    exact setLines_on_block body merged hmwf hm hbody2 hmnd t hts

theorem getVal_parse_setLines (lines : List Str) (t : List (Str × Str))
    (hwt : ∀ p ∈ t, wfKey p.1 = true ∧ wfVal p.2 = true)
    (hndt : (keysOf t).Nodup) :
    ∀ p ∈ t, getVal (parseTrailersLines (setTrailersLines lines t)) p.1 = some p.2 := by
  have hexwf := all_foldl_lineStep (lines.drop (trailerStartIndex lines)) [] (by simp)
  have hexnd := keysOf_foldl_lineStep_nodup (lines.drop (trailerStartIndex lines)) []
    (by simp [keysOf])
  have hmwf := all_foldl_mapSetStep _ t _ hexwf hwt
  have hmnd := keysOf_foldl_mapSetStep_nodup t _ hexnd
  set existing := (lines.drop (trailerStartIndex lines)).foldl lineStep [] with hexdef
  set merged := t.foldl mapSetStep existing with hmdef
  set body := dropTrailingEmpties (lines.take (trailerStartIndex lines)) with hbdef
  have hout : setTrailersLines lines t =
      if (merged.map lineOf).isEmpty then body else body ++ [[]] ++ merged.map lineOf := rfl
  intro p hp
  have hval : getVal merged p.1 = some p.2 := by
    rw [hmdef, getVal_foldl_mapSetStep]
    have h1 : getVal t.reverse p.1 = some p.2 := by
      rw [getVal_reverse t p.1 hndt]
      exact (getVal_eq_some_iff_mem t p.1 p.2 hndt).2 (by simpa using hp)
    rw [h1]
    rfl
  have hm : merged ≠ [] := by
    intro hnil
    rw [hnil] at hval
    simp [getVal] at hval
  have hmne : (merged.map lineOf).isEmpty = false := by
    rw [List.isEmpty_eq_false]
    simp [hm]
  have houtb : setTrailersLines lines t = body ++ [[]] ++ merged.map lineOf := by
    rw [hout, hmne]
    simp
  rw [houtb, getVal_parseTrailersLines_block body merged hmwf hm,
    getVal_reverse merged p.1 hmnd]
  exact hval

theorem setTrailers_keeps_and_idem (m : Str) (t : List (Str × Str))
    (hwt : ∀ p ∈ t, wfKey p.1 = true ∧ wfVal p.2 = true)
    (hndt : (keysOf t).Nodup) :
    (∀ p ∈ t, getVal (parseTrailers (setTrailers m t)) p.1 = some p.2) ∧
    setTrailers (setTrailers m t) t = setTrailers m t := by
  have hln : ∀ l ∈ splitLines m, '\n' ∉ l := fun l hl => no_newline_of_mem_splitLines m l hl
  have houtn : ∀ l ∈ setTrailersLines (splitLines m) t, '\n' ∉ l :=
    setLines_no_newline (splitLines m) t hln hwt
  constructor
  · intro p hp
    have hone : setTrailersLines (splitLines m) t ≠ [] := by
      intro hnil
      have hcontra := getVal_parse_setLines (splitLines m) t hwt hndt p hp
      rw [hnil] at hcontra
      simp [parseTrailersLines, parseLoop, getVal] at hcontra
    have hsplit : splitLines (joinLines (setTrailersLines (splitLines m) t)) =
        setTrailersLines (splitLines m) t :=
      splitLines_joinLines _ hone houtn
    rw [show parseTrailers (setTrailers m t) =
      parseTrailersLines (splitLines (joinLines (setTrailersLines (splitLines m) t)))
      from rfl, hsplit]
    exact getVal_parse_setLines (splitLines m) t hwt hndt p hp
  · by_cases hone : setTrailersLines (splitLines m) t = []
    · have ht : t = [] := by
        cases t with
        | nil => rfl
        | cons p t' =>
          exfalso
          have hcontra := getVal_parse_setLines (splitLines m) (p :: t') hwt hndt p
            (List.mem_cons_self _ _)
          rw [hone] at hcontra
          simp [parseTrailersLines, parseLoop, getVal] at hcontra
      subst ht
      have hmz : setTrailers m [] = [] := by
        rw [setTrailers, hone]
        rfl
      rw [hmz]
      decide
    · have hsplit := splitLines_joinLines _ hone houtn
      rw [show setTrailers (setTrailers m t) t =
        joinLines (setTrailersLines (splitLines (joinLines (setTrailersLines (splitLines m) t)))
          t) from rfl, hsplit, setLines_idem (splitLines m) t hwt hndt]
      rfl

/-! ## Behaviour of `stripStackerTrailers` on a terminal trailer block -/

theorem stripLines_block (body0 : List Str) (ps : List (Str × Str))
    (hwf : ∀ p ∈ ps, wfKey p.1 = true ∧ wfVal p.2 = true) (hne : ps ≠ []) :
    stripLines (body0 ++ [[]] ++ ps.map lineOf) =
      some (if ((ps.filter fun p => !(stackerPfx.isPrefixOf p.1)).map lineOf).isEmpty then
        dropTrailingEmpties body0
      else
        dropTrailingEmpties body0 ++ [[]] ++
          (ps.filter fun p => !(stackerPfx.isPrefixOf p.1)).map lineOf) := by
  have hrev : (body0 ++ [[]] ++ ps.map lineOf).reverse =
      ps.reverse.map lineOf ++ [] :: body0.reverse := by
    simp [List.reverse_append, List.map_reverse]
  have hall : ∀ l ∈ ps.reverse.map lineOf, (matchTrailer l).isSome = true := by
    intro l hl
    obtain ⟨p, hp, hlp⟩ := List.mem_map.1 hl
    obtain ⟨k, v⟩ := p
    have hw := hwf (k, v) (List.mem_reverse.1 hp)
    rw [← hlp, matchTrailer_lineOf k v hw.1 hw.2]
    rfl
  have hnilmatch : ((fun l => (matchTrailer l).isSome) ([] : Str)) = false := rfl
  have hrest : (ps.reverse.map lineOf ++ [] :: body0.reverse).dropWhile
      (fun l => (matchTrailer l).isNone) = ps.reverse.map lineOf ++ [] :: body0.reverse := by
    obtain ⟨q, qs, hq⟩ := List.exists_cons_of_ne_nil
      (by simpa using hne : ps.reverse ≠ [])
    have hqs := hall (lineOf q) (by rw [hq]; simp)
    rw [hq]
    simp only [List.map_cons, List.cons_append, List.dropWhile_cons]
    rw [show (matchTrailer (lineOf q)).isNone = false by
      rw [Option.isNone_eq_false_iff]
      exact hqs]
    simp
  have hrun : (ps.reverse.map lineOf ++ [] :: body0.reverse).takeWhile
      (fun l => (matchTrailer l).isSome) = ps.reverse.map lineOf :=
    takeWhile_append_of_all _ _ _ _ hall hnilmatch
  have hstop : (ps.reverse.map lineOf ++ [] :: body0.reverse).dropWhile
      (fun l => (matchTrailer l).isSome) = [] :: body0.reverse :=
    dropWhile_append_of_all _ _ _ _ hall hnilmatch
  have hrunrev : (ps.reverse.map lineOf).reverse = ps.map lineOf := by
    rw [← List.map_reverse, List.reverse_reverse]
  have hfilter : (ps.map lineOf).filter
      (fun l => match matchTrailer l with
        | some (k, _) => !(stackerPfx.isPrefixOf k)
        | none => false) =
      (ps.filter fun p => !(stackerPfx.isPrefixOf p.1)).map lineOf := by
    rw [List.filter_map]
    congr 1
    apply List.filter_congr
    intro p hp
    obtain ⟨k, v⟩ := p
    have hw := hwf (k, v) hp
    simp [Function.comp, matchTrailer_lineOf k v hw.1 hw.2]
  have hstoprev : (([] : Str) :: body0.reverse).reverse = body0 ++ [[]] := by
    simp
  simp only [stripLines]
  rw [hrev, hrest, hrun, hstop]
  simp only [List.isEmpty_cons, Bool.false_eq_true, if_false, hstoprev,
    dropTrailingEmpties_append_empty, hrunrev, hfilter]

theorem block_no_newline (body0 : List Str) (ps : List (Str × Str))
    (hln : ∀ l ∈ body0, '\n' ∉ l)
    (hwf : ∀ p ∈ ps, wfKey p.1 = true ∧ wfVal p.2 = true) :
    ∀ l ∈ body0 ++ [[]] ++ ps.map lineOf, '\n' ∉ l := by
  intro l hl
  rcases List.mem_append.1 hl with hl | hl
  · rcases List.mem_append.1 hl with hl | hl
    · exact hln l hl
    · simp only [List.mem_singleton] at hl
      simp [hl]
  · obtain ⟨p, hp, hlp⟩ := List.mem_map.1 hl
    obtain ⟨k, v⟩ := p
    have hw := hwf (k, v) hp
    exact hlp ▸ newline_not_mem_lineOf k v hw.1 hw.2

theorem splitLines_joinLines_block (body0 : List Str) (ps : List (Str × Str))
    (hln : ∀ l ∈ body0, '\n' ∉ l)
    (hwf : ∀ p ∈ ps, wfKey p.1 = true ∧ wfVal p.2 = true) :
    splitLines (joinLines (body0 ++ [[]] ++ ps.map lineOf)) =
      body0 ++ [[]] ++ ps.map lineOf :=
  splitLines_joinLines _ (by simp) (block_no_newline body0 ps hln hwf)

theorem stripStackerTrailers_block (body0 : List Str) (ps : List (Str × Str))
    (hln : ∀ l ∈ body0, '\n' ∉ l)
    (hwf : ∀ p ∈ ps, wfKey p.1 = true ∧ wfVal p.2 = true) (hne : ps ≠ []) :
    stripStackerTrailers (joinLines (body0 ++ [[]] ++ ps.map lineOf)) =
      (if ((ps.filter fun p => !(stackerPfx.isPrefixOf p.1)).map lineOf).isEmpty then
        joinLines (dropTrailingEmpties body0)
      else
        joinLines (dropTrailingEmpties body0 ++ [[]] ++
          (ps.filter fun p => !(stackerPfx.isPrefixOf p.1)).map lineOf)) := by
  rw [stripStackerTrailers, splitLines_joinLines_block body0 ps hln hwf,
    stripLines_block body0 ps hwf hne]
  exact apply_ite joinLines _ _ _

theorem set_preserves_outside_on_block (body0 : List Str) (ps t : List (Str × Str))
    (hln : ∀ l ∈ body0, '\n' ∉ l)
    (hwf : ∀ p ∈ ps, wfKey p.1 = true ∧ wfVal p.2 = true) (hne : ps ≠ [])
    (hwt : ∀ p ∈ t, wfKey p.1 = true ∧ wfVal p.2 = true)
    (k v : Str)
    (hparse : getVal (parseTrailers (joinLines (body0 ++ [[]] ++ ps.map lineOf))) k = some v)
    (hk : k ∉ keysOf t) :
    getVal (parseTrailers (setTrailers (joinLines (body0 ++ [[]] ++ ps.map lineOf)) t)) k
      = some v := by
  have hsplit := splitLines_joinLines_block body0 ps hln hwf
  have hparse2 : getVal ps.reverse k = some v := by
    rw [parseTrailers, hsplit, getVal_parseTrailersLines_block body0 ps hwf hne] at hparse
    exact hparse
  have htsi := trailerStartIndex_block body0 ps hwf hne
  have hlen : body0.length + 1 = (body0 ++ [[]]).length + 0 := by simp
  have hdrop : (body0 ++ [[]] ++ ps.map lineOf).drop (body0.length + 1) = ps.map lineOf := by
    rw [hlen, drop_len_append]
    rfl
  have htake : (body0 ++ [[]] ++ ps.map lineOf).take (body0.length + 1) = body0 ++ [[]] := by
    rw [hlen, take_len_append]
    simp
  have hex : (ps.map lineOf).foldl lineStep [] = ps.foldl mapSetStep [] :=
    foldl_lineStep_map ps hwf []
  have hvex : getVal (ps.foldl mapSetStep []) k = some v := by
    rw [getVal_foldl_mapSetStep, hparse2]
    rfl
  have hvm : getVal (t.foldl mapSetStep (ps.foldl mapSetStep [])) k = some v := by
    rw [getVal_foldl_mapSetStep]
    have hnone : getVal t.reverse k = none := by
      rw [getVal_eq_none_iff]
      intro hmem
      apply hk
      have : keysOf t.reverse = (keysOf t).reverse := by simp [keysOf]
      rw [this, List.mem_reverse] at hmem
      exact hmem
    rw [hnone, orO_none, hvex]
  have hexnd : (keysOf (ps.foldl mapSetStep [])).Nodup :=
    keysOf_foldl_mapSetStep_nodup ps [] (by simp [keysOf])
  have hmnd : (keysOf (t.foldl mapSetStep (ps.foldl mapSetStep []))).Nodup :=
    keysOf_foldl_mapSetStep_nodup t _ hexnd
  have hexwf : ∀ q ∈ ps.foldl mapSetStep [], wfKey q.1 = true ∧ wfVal q.2 = true :=
    all_foldl_mapSetStep _ ps [] (by simp) hwf
  have hmwf : ∀ q ∈ t.foldl mapSetStep (ps.foldl mapSetStep []),
      wfKey q.1 = true ∧ wfVal q.2 = true :=
    all_foldl_mapSetStep _ t _ hexwf hwt
  have hmne : t.foldl mapSetStep (ps.foldl mapSetStep []) ≠ [] := by
    intro hnil
    rw [hnil] at hvm
    simp [getVal] at hvm
  have hmlne : ((t.foldl mapSetStep (ps.foldl mapSetStep [])).map lineOf).isEmpty = false := by
    rw [List.isEmpty_eq_false]
    simp [hmne]
  have hout : setTrailersLines (body0 ++ [[]] ++ ps.map lineOf) t =
      dropTrailingEmpties body0 ++ [[]] ++
        (t.foldl mapSetStep (ps.foldl mapSetStep [])).map lineOf := by
    simp only [setTrailersLines, htsi, hdrop, htake, hex, hmlne, Bool.false_eq_true, if_false,
      dropTrailingEmpties_append_empty]
  have hlnb : ∀ l ∈ dropTrailingEmpties body0, '\n' ∉ l :=
    fun l hl => hln l (mem_of_mem_dropTrailingEmpties _ _ hl)
  rw [parseTrailers, setTrailers, hsplit, hout,
    splitLines_joinLines_block (dropTrailingEmpties body0) _ hlnb hmwf,
    getVal_parseTrailersLines_block _ _ hmwf hmne,
    getVal_reverse _ _ hmnd]
  exact hvm

/-! ## CI flag coherence -/

theorem ciFold_eq (cs : List CheckInfo) (p pe f : Bool) :
    cs.foldl ciStep (p, pe, f) =
      (p && !(cs.any isFailConclusion || cs.any (fun c => !isFailConclusion c && isPendingStatus c)),
       pe || cs.any (fun c => !isFailConclusion c && isPendingStatus c),
       f || cs.any isFailConclusion) := by
  induction cs generalizing p pe f with
  | nil => simp
  | cons c cs ih =>
    by_cases hf : isFailConclusion c = true
    · have hstep : ciStep (p, pe, f) c = (false, pe, true) := by simp [ciStep, hf]
      rw [List.foldl_cons, hstep, ih]
      simp [hf, List.any_cons]
    · by_cases hp : isPendingStatus c = true
      · have hstep : ciStep (p, pe, f) c = (false, true, f) := by simp [ciStep, hf, hp]
        rw [List.foldl_cons, hstep, ih]
        simp [hf, hp, List.any_cons]
      · have hstep : ciStep (p, pe, f) c = (p, pe, f) := by simp [ciStep, hf, hp]
        rw [List.foldl_cons, hstep, ih]
        simp [hf, hp, List.any_cons]

/-! ## The entry chain of `buildStack` -/

theorem chainFrom_snoc (t0 : Str) (acc : List StackEntry) (e : StackEntry)
    (h : chainFrom t0 acc)
    (he : e.targetBranch = (match acc.getLast? with
      | some prev => prev.branchName
      | none => t0)) :
    chainFrom t0 (acc ++ [e]) := by
  induction acc generalizing t0 with
  | nil =>
    exact ⟨by simpa using he, trivial⟩
  | cons a rest ih =>
    refine ⟨h.1, ih a.branchName h.2 ?_⟩
    cases rest with
    | nil => simpa using he
    | cons b bs => simpa using he

theorem buildStackEntries_cons (sn target : Str) (dep : Option StackDependency)
    (repo : Str) (findPR : Str → Option Nat) (c : Commit) (rest : List Commit)
    (i : Nat) (acc : List StackEntry) :
    ∃ e : StackEntry,
      buildStackEntries sn target dep repo findPR (c :: rest) i acc =
        buildStackEntries sn target dep repo findPR rest (i + 1) (acc ++ [e]) ∧
      e.targetBranch = (if i = 0 then bottomTarget dep target
        else match acc.getLast? with
          | some prev => prev.branchName
          | none => []) :=
  ⟨_, rfl, rfl⟩

theorem buildStackEntries_chain (sn target : Str) (dep : Option StackDependency)
    (repo : Str) (findPR : Str → Option Nat) (cs : List Commit) :
    ∀ acc : List StackEntry, chainFrom (bottomTarget dep target) acc →
      chainFrom (bottomTarget dep target)
        (buildStackEntries sn target dep repo findPR cs acc.length acc) := by
  induction cs with
  | nil =>
    intro acc h
    exact h
  | cons c rest ih =>
    intro acc h
    obtain ⟨e, heq, htgt⟩ := buildStackEntries_cons sn target dep repo findPR c rest
      acc.length acc
    rw [heq]
    have hchain : chainFrom (bottomTarget dep target) (acc ++ [e]) := by
      refine chainFrom_snoc _ acc e h ?_
      cases acc with
      | nil => simpa using htgt
      | cons a l =>
        have hlen : (a :: l).length ≠ 0 := by simp
        rw [htgt, if_neg hlen]
        cases hgl : (a :: l).getLast? with
        | none =>
          have hne : (a :: l) ≠ [] := by simp
          rw [← List.getLast?_isSome, hgl] at hne
          simp at hne
        | some x => simp
    have hlen2 : acc.length + 1 = (acc ++ [e]).length := by simp
    rw [hlen2]
    exact ih (acc ++ [e]) hchain

theorem chainFrom_get_zero (t0 : Str) (l : List StackEntry) (h : chainFrom t0 l)
    (h0 : 0 < l.length) : (l.get ⟨0, h0⟩).targetBranch = t0 := by
  cases l with
  | nil => simp at h0
  | cons e rest => exact h.1

theorem chainFrom_get_succ (t0 : Str) (l : List StackEntry) (h : chainFrom t0 l) :
    ∀ (i : Nat) (hi : i < l.length), 0 < i →
      (l.get ⟨i, hi⟩).targetBranch =
        (l.get ⟨i - 1, Nat.lt_of_le_of_lt (Nat.sub_le i 1) hi⟩).branchName := by
  induction l generalizing t0 with
  | nil => intro i hi h0; simp at hi
  | cons e rest ih =>
    intro i hi h0
    cases i with
    | zero => simp at h0
    | succ j =>
      cases j with
      | zero =>
        cases rest with
        | nil => simp at hi
        | cons r rs => exact h.2.1
      | succ j2 =>
        have hj : j2 + 1 < rest.length := by
          simp only [List.length_cons] at hi
          omega
        have := ih e.branchName h.2 (j2 + 1) hj (by omega)
        simpa using this

/-! ## Claim theorems -/

/-- C2 counterexample: the claim quantifies over every trailer mapping, but
for `m = ""` and `t = {"A" ↦ "x\ny"}` the set pair is not retrievable from
`parseTrailers (setTrailers m t)` (the parse stops at the embedded newline
and returns `"x"`), and `setTrailers` is not idempotent on this input. -/
theorem setTrailers_roundtrip_cex :
    getVal (parseTrailers (setTrailers (str "") [(str "A", str "x\ny")])) (str "A") ≠
      some (str "x\ny") ∧
    setTrailers (setTrailers (str "") [(str "A", str "x\ny")]) [(str "A", str "x\ny")] ≠
      setTrailers (str "") [(str "A", str "x\ny")] := by
  decide

/-- C2 (amended): for every commit message `m` and every trailer mapping `t`
with distinct keys matching the trailer key syntax `[A-Za-z][A-Za-z0-9-]*`
and non-empty single-line values, every key/value pair of `t` is retrievable
from `parseTrailers (setTrailers m t)`, and `setTrailers` is idempotent:
`setTrailers (setTrailers m t) t = setTrailers m t`. -/
theorem setTrailers_roundtrip_idem_amended (m : Str) (t : List (Str × Str))
    (hwt : ∀ p ∈ t, wfKey p.1 = true ∧ wfVal p.2 = true)
    (hndt : (keysOf t).Nodup) :
    (∀ p ∈ t, getVal (parseTrailers (setTrailers m t)) p.1 = some p.2) ∧
    setTrailers (setTrailers m t) t = setTrailers m t :=
  setTrailers_keeps_and_idem m t hwt hndt

/-- Witness for the amended C2 theorem at a concrete message and mapping. -/
theorem setTrailers_roundtrip_idem_amended_witness :
    (∀ p ∈ [(str "Stacker-Branch", str "stack/feature/1"), (str "Stacker-PR", str "7")],
      wfKey p.1 = true ∧ wfVal p.2 = true) ∧
    (keysOf [(str "Stacker-Branch", str "stack/feature/1"), (str "Stacker-PR", str "7")]).Nodup ∧
    ((∀ p ∈ [(str "Stacker-Branch", str "stack/feature/1"), (str "Stacker-PR", str "7")],
      getVal (parseTrailers (setTrailers (str "Subject\n\nBody text")
        [(str "Stacker-Branch", str "stack/feature/1"), (str "Stacker-PR", str "7")])) p.1 =
        some p.2) ∧
    setTrailers (setTrailers (str "Subject\n\nBody text")
        [(str "Stacker-Branch", str "stack/feature/1"), (str "Stacker-PR", str "7")])
      [(str "Stacker-Branch", str "stack/feature/1"), (str "Stacker-PR", str "7")] =
      setTrailers (str "Subject\n\nBody text")
        [(str "Stacker-Branch", str "stack/feature/1"), (str "Stacker-PR", str "7")]) :=
  ⟨by decide, by decide,
    setTrailers_roundtrip_idem_amended (str "Subject\n\nBody text")
      [(str "Stacker-Branch", str "stack/feature/1"), (str "Stacker-PR", str "7")]
      (by decide) (by decide)⟩

/-- C3 counterexample: in the message `"K: v\nplain"` the trailer `K: v` is
retrievable by `parseTrailers`, its key is outside the mapping `{J ↦ w}`
being written, and yet `setTrailers` drops it: the two scans disagree on
non-trailer text below a trailer line, so `setTrailers` appends a new block
after the old trailer, which `parseTrailers` then no longer reaches. -/
theorem setTrailers_drops_outside_trailer_cex :
    getVal (parseTrailers (str "K: v\nplain")) (str "K") = some (str "v") ∧
    (str "K") ∉ keysOf [(str "J", str "w")] ∧
    getVal (parseTrailers (setTrailers (str "K: v\nplain") [(str "J", str "w")])) (str "K")
      = none := by
  decide

/-- C3 (amended): for messages whose trailer block is terminal — the lines
are a body, one blank line, then a non-empty run of trailer-shaped lines —
`setTrailers` keeps every pre-existing trailer whose key is outside the
mapping being written, and `stripStackerTrailers` removes exactly the
`Stacker-`-prefixed trailer lines, keeps the others in order, and removes
the block together with its preceding blank line iff no trailer remains;
and the concrete scenario message strips to the specified text. -/
theorem trailer_isolation_amended :
    (∀ (body0 : List Str) (ps t : List (Str × Str)),
      (∀ l ∈ body0, '\n' ∉ l) →
      (∀ p ∈ ps, wfKey p.1 = true ∧ wfVal p.2 = true) →
      ps ≠ [] →
      (∀ p ∈ t, wfKey p.1 = true ∧ wfVal p.2 = true) →
      (∀ k v, getVal (parseTrailers (joinLines (body0 ++ [[]] ++ ps.map lineOf))) k = some v →
          k ∉ keysOf t →
          getVal (parseTrailers (setTrailers (joinLines (body0 ++ [[]] ++ ps.map lineOf)) t)) k
            = some v) ∧
      stripStackerTrailers (joinLines (body0 ++ [[]] ++ ps.map lineOf)) =
        (if ((ps.filter fun p => !(stackerPfx.isPrefixOf p.1)).map lineOf).isEmpty then
          joinLines (dropTrailingEmpties body0)
        else
          joinLines (dropTrailingEmpties body0 ++ [[]] ++
            (ps.filter fun p => !(stackerPfx.isPrefixOf p.1)).map lineOf))) ∧
    stripStackerTrailers
      (str "Subject\n\nBody text\n\nReviewed-by: X <x@y.com>\nStacker-Branch: foo/1") =
      str "Subject\n\nBody text\n\nReviewed-by: X <x@y.com>" := by
  constructor
  · intro body0 ps t hln hwf hne hwt
    exact ⟨fun k v hp hk => set_preserves_outside_on_block body0 ps t hln hwf hne hwt k v hp hk,
      stripStackerTrailers_block body0 ps hln hwf hne⟩
  · decide

/-- Witness for the amended C3 theorem: the scenario message decomposed as a
body and a terminal trailer block, with the hypotheses discharged on the
concrete values. -/
theorem trailer_isolation_amended_witness :
    (∀ l ∈ [str "Subject", ([] : Str), str "Body text"], '\n' ∉ l) ∧
    (∀ p ∈ [(str "Reviewed-by", str "X <x@y.com>"), (str "Stacker-Branch", str "foo/1")],
      wfKey p.1 = true ∧ wfVal p.2 = true) ∧
    ([(str "Reviewed-by", str "X <x@y.com>"), (str "Stacker-Branch", str "foo/1")] ≠
      ([] : List (Str × Str))) ∧
    (∀ p ∈ [(str "J", str "w")], wfKey p.1 = true ∧ wfVal p.2 = true) ∧
    stripStackerTrailers (joinLines ([str "Subject", [], str "Body text"] ++ [[]] ++
        [(str "Reviewed-by", str "X <x@y.com>"), (str "Stacker-Branch", str "foo/1")].map
          lineOf)) =
      (if (([(str "Reviewed-by", str "X <x@y.com>"), (str "Stacker-Branch", str "foo/1")].filter
          fun p => !(stackerPfx.isPrefixOf p.1)).map lineOf).isEmpty then
        joinLines (dropTrailingEmpties [str "Subject", [], str "Body text"])
      else
        joinLines (dropTrailingEmpties [str "Subject", [], str "Body text"] ++ [[]] ++
          ([(str "Reviewed-by", str "X <x@y.com>"), (str "Stacker-Branch", str "foo/1")].filter
            fun p => !(stackerPfx.isPrefixOf p.1)).map lineOf)) :=
  ⟨by decide, by decide, by decide, by decide,
    (trailer_isolation_amended.1 [str "Subject", [], str "Body text"]
      [(str "Reviewed-by", str "X <x@y.com>"), (str "Stacker-Branch", str "foo/1")]
      [(str "J", str "w")] (by decide) (by decide) (by decide) (by decide)).2⟩

/-- C4, code evaluated at the failing input: a commit whose `Stacker-`
trailers already match the target trailers — the branch trailer equals the
entry's branch name and, like the resolved PR number, the PR trailer is
absent — still trips the phase-2 comparison of `submitCommand`, because
`existingPr !== String(prNumbers[i] ?? '')` compares `undefined` against
`""`; `needsRebase` is set and the synchronizer rewrites every commit even
though writing the target trailers leaves the message unchanged. -/
theorem needsRebase_churn_on_matching_trailers :
    getVal (getStackerTrailers (str "Subject\n\nStacker-Branch: stack/feature/1")) kBRANCH
      = some (str "stack/feature/1") ∧
    getVal (getStackerTrailers (str "Subject\n\nStacker-Branch: stack/feature/1")) kPR
      = none ∧
    setTrailers (str "Subject\n\nStacker-Branch: stack/feature/1")
        [(kBRANCH, str "stack/feature/1")] =
      str "Subject\n\nStacker-Branch: stack/feature/1" ∧
    needsTrailerUpdate (str "Subject\n\nStacker-Branch: stack/feature/1")
      (str "stack/feature/1") none = true ∧
    needsRebase
      [(str "Subject\n\nStacker-Branch: stack/feature/1", str "stack/feature/1", none)]
      = true := by
  decide

/-- C5, code evaluated at the failing input: regenerating a PR body is not a
fixed point.  `removeStackerSection` removes only the marker-fenced block,
so the commit body appended below the block survives inside the cleaned
original description and `generatePRBody` appends it a second time. -/
theorem generatePRBody_not_fixed_point :
    generatePRBody
      ⟨str "feature",
        [⟨⟨str "abc123", str "abc123", str "Add feature", str "Body text"⟩,
          none, none, str "stack/feature/1", str "main"⟩],
        str "main", none⟩ 0
      (some (generatePRBody
        ⟨str "feature",
          [⟨⟨str "abc123", str "abc123", str "Add feature", str "Body text"⟩,
            none, none, str "stack/feature/1", str "main"⟩],
          str "main", none⟩ 0 (some (str "Original desc")))) ≠
    generatePRBody
      ⟨str "feature",
        [⟨⟨str "abc123", str "abc123", str "Add feature", str "Body text"⟩,
          none, none, str "stack/feature/1", str "main"⟩],
        str "main", none⟩ 0 (some (str "Original desc")) := by
  decide

/-- C6 counterexample: for a 3-commit range with no trailers, target `main`
and no existing PRs, the synthesized branch names are
`stack/{name}/{position}`, not `{name}/{position}` as the claim states. -/
theorem buildStack_scenario_names_cex :
    (buildStack (str "feature") (str "main") (str "o/r") (str "Initial commit")
        (fun _ => none)
        [⟨str "s1", str "s1", str "A", str "A body"⟩,
         ⟨str "s2", str "s2", str "B", str "B body"⟩,
         ⟨str "s3", str "s3", str "C", str "C body"⟩]).entries.map
      (fun e => e.branchName) ≠
      [str "feature/1", str "feature/2", str "feature/3"] := by
  decide

/-- C6 (amended): for a 3-commit range with no trailers, target `main` and
no existing PRs, the built Stack has 3 entries named `stack/{name}/1`,
`stack/{name}/2`, `stack/{name}/3` (1-based positions), with
`entry[0].targetBranch = "main"`, each later entry targeting its
predecessor's branch, no PR numbers and no `dependsOn`. -/
theorem buildStack_three_commit_scenario :
    buildStack (str "feature") (str "main") (str "o/r") (str "Initial commit")
        (fun _ => none)
        [⟨str "s1", str "s1", str "A", str "A body"⟩,
         ⟨str "s2", str "s2", str "B", str "B body"⟩,
         ⟨str "s3", str "s3", str "C", str "C body"⟩] =
      ⟨str "feature",
        [⟨⟨str "s1", str "s1", str "A", str "A body"⟩, none, none,
          str "stack/feature/1", str "main"⟩,
         ⟨⟨str "s2", str "s2", str "B", str "B body"⟩, none, none,
          str "stack/feature/2", str "stack/feature/1"⟩,
         ⟨⟨str "s3", str "s3", str "C", str "C body"⟩, none, none,
          str "stack/feature/3", str "stack/feature/2"⟩],
        str "main", none⟩ := by
  decide

/-- C7 counterexample: with the merge-base commit carrying exactly the
trailer `Stacker-Branch: other-feature/2` of the claim's scenario,
`detectDependency` does not return the claimed dependency — the value does
not match `/^stack\/(.+?)\/\d+$/`, so `extractStackName` returns it whole
and the recorded `stackName` is `"other-feature/2"`, not `"other-feature"`. -/
theorem detectDependency_claim_cex :
    detectDependency (str "stack/my-feature/1")
        (str "Base\n\nStacker-Branch: other-feature/2") ≠
      some ⟨str "other-feature", str "other-feature/2", none, true⟩ ∧
    (detectDependency (str "stack/my-feature/1")
        (str "Base\n\nStacker-Branch: other-feature/2")).map
      (fun d => d.stackName) = some (str "other-feature/2") := by
  decide

/-- C7 (amended): when the merge-base commit carries the trailer
`Stacker-Branch: stack/other-feature/2` (the code's branch-name scheme) and
`other-feature` differs from the current stack's name, the built dependency
is `{stackName := "other-feature", topBranch := "stack/other-feature/2",
autoDetected := true}`, with the depended-on stack's PR number when its
`Stacker-PR` trailer is present. -/
theorem detectDependency_scenario_amended :
    detectDependency (str "stack/my-feature/1")
        (str "Base\n\nStacker-Branch: stack/other-feature/2\nStacker-PR: 42") =
      some ⟨str "other-feature", str "stack/other-feature/2", some 42, true⟩ ∧
    detectDependency (str "stack/my-feature/1")
        (str "Base\n\nStacker-Branch: stack/other-feature/2") =
      some ⟨str "other-feature", str "stack/other-feature/2", none, true⟩ := by
  decide

/-- C1: for every Stack returned by `buildStack`, entry `i`'s `targetBranch`
equals entry `i - 1`'s `branchName` for every `i > 0`, and entry 0's
`targetBranch` equals `dependsOn.topBranch` when a dependency was detected,
else the configured target. -/
theorem buildStack_targetBranch_chain (currentBranch target repo baseBody : Str)
    (findPR : Str → Option Nat) (commits : List Commit) :
    (∀ (i : Nat)
      (hi : i < (buildStack currentBranch target repo baseBody findPR commits).entries.length),
      0 < i →
      ((buildStack currentBranch target repo baseBody findPR commits).entries.get
          ⟨i, hi⟩).targetBranch =
        ((buildStack currentBranch target repo baseBody findPR commits).entries.get
          ⟨i - 1, Nat.lt_of_le_of_lt (Nat.sub_le i 1) hi⟩).branchName) ∧
    (∀ h0 : 0 < (buildStack currentBranch target repo baseBody findPR commits).entries.length,
      ((buildStack currentBranch target repo baseBody findPR commits).entries.get
          ⟨0, h0⟩).targetBranch =
        bottomTarget (buildStack currentBranch target repo baseBody findPR commits).dependsOn
          target) := by
  have hchain : chainFrom
      (bottomTarget (detectDependency currentBranch baseBody) target)
      (buildStack currentBranch target repo baseBody findPR commits).entries := by
    have h0 : chainFrom (bottomTarget (detectDependency currentBranch baseBody) target)
        ([] : List StackEntry) := trivial
    have := buildStackEntries_chain (extractStackName currentBranch) target
      (detectDependency currentBranch baseBody) repo findPR commits [] h0
    exact this
  exact ⟨fun i hi h0 => chainFrom_get_succ _ _ hchain i hi h0,
    fun h0 => chainFrom_get_zero _ _ hchain h0⟩

/-- Witness for C1 on a concrete two-commit stack: the chain equations of
both conjuncts hold at the bounds discharged by computation. -/
theorem buildStack_targetBranch_chain_witness :
    (((buildStack (str "feature") (str "main") (str "o/r") (str "Initial commit")
        (fun _ => none)
        [⟨str "s1", str "s1", str "A", str "A body"⟩,
         ⟨str "s2", str "s2", str "B", str "B body"⟩]).entries.get
        ⟨1, by decide⟩).targetBranch =
      ((buildStack (str "feature") (str "main") (str "o/r") (str "Initial commit")
        (fun _ => none)
        [⟨str "s1", str "s1", str "A", str "A body"⟩,
         ⟨str "s2", str "s2", str "B", str "B body"⟩]).entries.get
        ⟨0, by decide⟩).branchName) ∧
    (((buildStack (str "feature") (str "main") (str "o/r") (str "Initial commit")
        (fun _ => none)
        [⟨str "s1", str "s1", str "A", str "A body"⟩,
         ⟨str "s2", str "s2", str "B", str "B body"⟩]).entries.get
        ⟨0, by decide⟩).targetBranch =
      bottomTarget (buildStack (str "feature") (str "main") (str "o/r") (str "Initial commit")
        (fun _ => none)
        [⟨str "s1", str "s1", str "A", str "A body"⟩,
         ⟨str "s2", str "s2", str "B", str "B body"⟩]).dependsOn (str "main")) :=
  ⟨(buildStack_targetBranch_chain (str "feature") (str "main") (str "o/r")
      (str "Initial commit") (fun _ => none)
      [⟨str "s1", str "s1", str "A", str "A body"⟩,
       ⟨str "s2", str "s2", str "B", str "B body"⟩]).1 1 (by decide) (by decide),
   (buildStack_targetBranch_chain (str "feature") (str "main") (str "o/r")
      (str "Initial commit") (fun _ => none)
      [⟨str "s1", str "s1", str "A", str "A body"⟩,
       ⟨str "s2", str "s2", str "B", str "B body"⟩]).2 (by decide)⟩

/-- C9: the flags returned by `areCIChecksPassing` are coherent — `failing`
is true iff some check has conclusion `FAILURE` or `ERROR`, `pending` is
true iff some check without such a conclusion has status `IN_PROGRESS`,
`PENDING` or `QUEUED`, and `passing` is true iff neither `failing` nor
`pending` is true. -/
theorem areCIChecksPassing_flags_coherent (checks : List CheckInfo) :
    ((areCIChecksPassing checks).failing = true ↔
      ∃ c ∈ checks, c.conclusion = some (str "FAILURE") ∨
        c.conclusion = some (str "ERROR")) ∧
    ((areCIChecksPassing checks).pending = true ↔
      ∃ c ∈ checks,
        ¬(c.conclusion = some (str "FAILURE") ∨ c.conclusion = some (str "ERROR")) ∧
        (c.status = str "IN_PROGRESS" ∨ c.status = str "PENDING" ∨
          c.status = str "QUEUED")) ∧
    ((areCIChecksPassing checks).passing = true ↔
      ((areCIChecksPassing checks).failing = false ∧
       (areCIChecksPassing checks).pending = false)) := by
  have h := ciFold_eq checks true false false
  have hF : (areCIChecksPassing checks).failing =
      (checks.foldl ciStep (true, false, false)).2.2 := rfl
  have hP : (areCIChecksPassing checks).pending =
      (checks.foldl ciStep (true, false, false)).2.1 := rfl
  have hS : (areCIChecksPassing checks).passing =
      (checks.foldl ciStep (true, false, false)).1 := rfl
  refine ⟨?_, ?_, ?_⟩
  · rw [hF, h]
    simp [List.any_eq_true, isFailConclusion]
  · rw [hP, h]
    simp only [Bool.false_or, List.any_eq_true, Bool.and_eq_true, Bool.not_eq_true']
    constructor
    · rintro ⟨c, hc, h1, h2⟩
      refine ⟨c, hc, ?_, ?_⟩
      · simp [isFailConclusion] at h1
        tauto
      · simp [isPendingStatus] at h2
        tauto
    · rintro ⟨c, hc, h1, h2⟩
      refine ⟨c, hc, ?_, ?_⟩
      · simp [isFailConclusion]
        tauto
      · simp [isPendingStatus]
        tauto
  · rw [hS, hF, hP, h]
    cases hA : checks.any isFailConclusion <;>
      cases hB : checks.any (fun c => !isFailConclusion c && isPendingStatus c) <;> simp

/-- Positions of the last two elements appended after a prefix. -/
theorem get_pair_in_append {α : Type} (ws : List α) (u m : α) :
    ∃ (i j : Nat) (hi : i < ((ws ++ [u]) ++ [m]).length)
      (hj : j < ((ws ++ [u]) ++ [m]).length),
      i < j ∧ ((ws ++ [u]) ++ [m]).get ⟨i, hi⟩ = u ∧ ((ws ++ [u]) ++ [m]).get ⟨j, hj⟩ = m := by
  induction ws with
  | nil =>
    exact ⟨0, 1, by simp, by simp, by omega, rfl, rfl⟩
  | cons w ws ih =>
    obtain ⟨i, j, hi, hj, hij, hu, hm⟩ := ih
    refine ⟨i + 1, j + 1, by simpa using Nat.succ_lt_succ hi,
      by simpa using Nat.succ_lt_succ hj, by omega, ?_, ?_⟩
    · simpa using hu
    · simpa using hm

/-- C8: when landing a bottom PR that is mergeable and review-approved but
has a status check with conclusion `FAILURE`, the land command without the
force flag fails with a CI-failure error naming the failed checks and
issues no action (in particular no merge); with the force flag it logs a
warning and proceeds to the merge of the bottom PR. -/
theorem landCommand_ci_failure_gate (stack : Stack) (status : PRStatusM)
    (msg target : Str) (bottom : StackEntry) (rest : List StackEntry) (pr : Nat)
    (hentries : stack.entries = bottom :: rest)
    (hpr : bottom.prNumber = some pr)
    (hm : status.mergeable = true)
    (hcr : status.reviewDecision ≠ some (str "CHANGES_REQUESTED"))
    (hrr : status.reviewDecision ≠ some (str "REVIEW_REQUIRED"))
    (hfail : ∃ c ∈ status.checks, c.conclusion = some (str "FAILURE")) :
    landRun stack status msg target false =
      .error (.ciFailed pr ((status.checks.filter isFailConclusion).map (fun c => c.name))) ∧
    ∃ tr, landRun stack status msg target true = .ok tr ∧
      (∃ a ∈ tr, isWarn a = true) ∧ (∃ a ∈ tr, isMergeOf pr a = true) := by
  have hciF : (areCIChecksPassing status.checks).failing = true := by
    have hF : (areCIChecksPassing status.checks).failing =
        (status.checks.foldl ciStep (true, false, false)).2.2 := rfl
    rw [hF, ciFold_eq]
    obtain ⟨c, hc, hcc⟩ := hfail
    simp only [Bool.false_or, List.any_eq_true]
    exact ⟨c, hc, by simp [isFailConclusion, hcc]⟩
  have hmne : (!status.mergeable) ≠ true := by simp [hm]
  constructor
  · simp only [landRun, hentries, hpr]
    rw [if_neg hmne, if_neg hcr, if_neg hrr, if_pos (by simp [hciF])]
    rfl
  · simp only [landRun, hentries, hpr]
    rw [if_neg hmne, if_neg hcr, if_neg hrr,
      if_neg (by simp : ¬((areCIChecksPassing status.checks).failing && !true) = true),
      if_neg (by simp : ¬((areCIChecksPassing status.checks).pending && !true) = true)]
    refine ⟨_, rfl, ?_, ?_⟩
    · refine ⟨.warnCIFailing
        (((areCIChecksPassing status.checks).checks.filter isFailConclusion).map
          (fun c => c.name)), ?_, rfl⟩
      refine List.mem_append_left _ (List.mem_append_left _ (List.mem_append_left _ ?_))
      rw [if_pos hciF]
      exact List.mem_singleton_self _
    · refine ⟨_, List.mem_append_right _ (List.mem_singleton_self _), ?_⟩
      simp [isMergeOf]

/-- Witness for C8 on a one-entry stack whose single check failed: without
force the run is exactly the CI-failure error; with force it merges. -/
theorem landCommand_ci_failure_gate_witness :
    ((⟨str "feature",
        [⟨⟨str "a1", str "a1", str "S", str "B"⟩, some 7, none,
          str "stack/feature/1", str "main"⟩],
        str "main", none⟩ : Stack).entries =
      (⟨⟨str "a1", str "a1", str "S", str "B"⟩, some 7, none,
        str "stack/feature/1", str "main"⟩ : StackEntry) :: []) ∧
    ((⟨⟨str "a1", str "a1", str "S", str "B"⟩, some 7, none,
        str "stack/feature/1", str "main"⟩ : StackEntry).prNumber = some 7) ∧
    ((⟨true, str "CLEAN", none,
        [⟨str "build", str "COMPLETED", some (str "FAILURE")⟩]⟩ : PRStatusM).mergeable
      = true) ∧
    ((⟨true, str "CLEAN", none,
        [⟨str "build", str "COMPLETED", some (str "FAILURE")⟩]⟩ : PRStatusM).reviewDecision
      ≠ some (str "CHANGES_REQUESTED")) ∧
    ((⟨true, str "CLEAN", none,
        [⟨str "build", str "COMPLETED", some (str "FAILURE")⟩]⟩ : PRStatusM).reviewDecision
      ≠ some (str "REVIEW_REQUIRED")) ∧
    (∃ c ∈ (⟨true, str "CLEAN", none,
        [⟨str "build", str "COMPLETED", some (str "FAILURE")⟩]⟩ : PRStatusM).checks,
      c.conclusion = some (str "FAILURE")) ∧
    (landRun
        ⟨str "feature",
          [⟨⟨str "a1", str "a1", str "S", str "B"⟩, some 7, none,
            str "stack/feature/1", str "main"⟩],
          str "main", none⟩
        ⟨true, str "CLEAN", none, [⟨str "build", str "COMPLETED", some (str "FAILURE")⟩]⟩
        (str "Subject") (str "main") false =
      .error (.ciFailed 7
        (((⟨true, str "CLEAN", none,
            [⟨str "build", str "COMPLETED", some (str "FAILURE")⟩]⟩ : PRStatusM).checks.filter
          isFailConclusion).map (fun c => c.name))) ∧
    ∃ tr, landRun
        ⟨str "feature",
          [⟨⟨str "a1", str "a1", str "S", str "B"⟩, some 7, none,
            str "stack/feature/1", str "main"⟩],
          str "main", none⟩
        ⟨true, str "CLEAN", none, [⟨str "build", str "COMPLETED", some (str "FAILURE")⟩]⟩
        (str "Subject") (str "main") true = .ok tr ∧
      (∃ a ∈ tr, isWarn a = true) ∧ (∃ a ∈ tr, isMergeOf 7 a = true)) :=
  ⟨rfl, rfl, rfl, by decide, by decide, by decide,
    landCommand_ci_failure_gate _ _ (str "Subject") (str "main") _ [] 7 rfl rfl rfl
      (by decide) (by decide) (by decide)⟩

/-- C10: whenever the land command's run succeeds on a stack with more than
one entry whose second entry has a PR number, the retarget of that next
PR's base branch — to the dependency's top branch if present, else the
configured target — appears in the issued action trace strictly before the
merge of the bottom PR. -/
theorem landCommand_update_before_merge (stack : Stack) (status : PRStatusM)
    (msg target : Str) (force : Bool) (tr : List LandAction)
    (h : landRun stack status msg target force = .ok tr)
    (e0 e1 : StackEntry) (rest2 : List StackEntry)
    (hentries : stack.entries = e0 :: e1 :: rest2)
    (n : Nat) (hn : e1.prNumber = some n) :
    ∃ (i2 j : Nat) (hi : i2 < tr.length) (hj : j < tr.length), i2 < j ∧
      tr.get ⟨i2, hi⟩ = .updatePRBase n (bottomTarget stack.dependsOn target) ∧
      ∃ pr, e0.prNumber = some pr ∧ isMergeOf pr (tr.get ⟨j, hj⟩) = true := by
  simp only [landRun, hentries] at h
  cases hpr : e0.prNumber with
  | none =>
    simp only [hpr] at h
    exact absurd h (by simp)
  | some pr =>
    simp only [hpr] at h
    by_cases h1 : (!status.mergeable) = true
    · rw [if_pos h1] at h
      simp at h
    rw [if_neg h1] at h
    by_cases h2 : status.reviewDecision = some (str "CHANGES_REQUESTED")
    · rw [if_pos h2] at h
      simp at h
    rw [if_neg h2] at h
    by_cases h3 : status.reviewDecision = some (str "REVIEW_REQUIRED")
    · rw [if_pos h3] at h
      simp at h
    rw [if_neg h3] at h
    by_cases h4 : ((areCIChecksPassing status.checks).failing && !force) = true
    · rw [if_pos h4] at h
      simp at h
    rw [if_neg h4] at h
    by_cases h5 : ((areCIChecksPassing status.checks).pending && !force) = true
    · rw [if_pos h5] at h
      simp at h
    rw [if_neg h5] at h
    simp only [hn, Except.ok.injEq] at h
    subst h
    obtain ⟨i, j, hi, hj, hij, hu, hm2⟩ := get_pair_in_append
      ((if (areCIChecksPassing status.checks).failing = true then
          [LandAction.warnCIFailing
            (((areCIChecksPassing status.checks).checks.filter isFailConclusion).map
              (fun c => c.name))]
        else []) ++
        (if (areCIChecksPassing status.checks).pending = true then
          [LandAction.warnCIPending] else []))
      (LandAction.updatePRBase n (match stack.dependsOn with
        | some d => d.topBranch
        | none => target))
      (LandAction.merge pr
        ((splitLines (stripStackerTrailers msg)).headD [] ++ str " (#" ++ natToStr pr ++ [')'])
        (if (trimStr (joinLines ((splitLines (stripStackerTrailers msg)).drop 1))).isEmpty then
          [' ']
        else trimStr (joinLines ((splitLines (stripStackerTrailers msg)).drop 1))))
    exact ⟨i, j, hi, hj, hij, hu, pr, rfl, by rw [hm2]; simp [isMergeOf]⟩

/-- Witness for C10 on a concrete two-entry stack: the successful run's
trace retargets PR 8 at position 0 and merges PR 7 at position 1. -/
theorem landCommand_update_before_merge_witness :
    (landRun
        ⟨str "feature",
          [⟨⟨str "a1", str "a1", str "S", str "B"⟩, some 7, none,
            str "stack/feature/1", str "main"⟩,
           ⟨⟨str "a2", str "a2", str "T", str "C"⟩, some 8, none,
            str "stack/feature/2", str "stack/feature/1"⟩],
          str "main", none⟩
        ⟨true, str "CLEAN", none, []⟩ (str "Subject") (str "main") false =
      .ok [LandAction.updatePRBase 8 (str "main"),
        LandAction.merge 7 (str "Subject (#7)") [' ']]) ∧
    ((⟨str "feature",
        [⟨⟨str "a1", str "a1", str "S", str "B"⟩, some 7, none,
          str "stack/feature/1", str "main"⟩,
         ⟨⟨str "a2", str "a2", str "T", str "C"⟩, some 8, none,
          str "stack/feature/2", str "stack/feature/1"⟩],
        str "main", none⟩ : Stack).entries =
      (⟨⟨str "a1", str "a1", str "S", str "B"⟩, some 7, none,
        str "stack/feature/1", str "main"⟩ : StackEntry) ::
      (⟨⟨str "a2", str "a2", str "T", str "C"⟩, some 8, none,
        str "stack/feature/2", str "stack/feature/1"⟩ : StackEntry) :: []) ∧
    ((⟨⟨str "a2", str "a2", str "T", str "C"⟩, some 8, none,
        str "stack/feature/2", str "stack/feature/1"⟩ : StackEntry).prNumber = some 8) ∧
    (∃ (i2 j : Nat)
      (hi : i2 < ([LandAction.updatePRBase 8 (str "main"),
        LandAction.merge 7 (str "Subject (#7)") [' ']] : List LandAction).length)
      (hj : j < ([LandAction.updatePRBase 8 (str "main"),
        LandAction.merge 7 (str "Subject (#7)") [' ']] : List LandAction).length),
      i2 < j ∧
      ([LandAction.updatePRBase 8 (str "main"),
        LandAction.merge 7 (str "Subject (#7)") [' ']] : List LandAction).get ⟨i2, hi⟩ =
        .updatePRBase 8
          (bottomTarget (⟨str "feature",
            [⟨⟨str "a1", str "a1", str "S", str "B"⟩, some 7, none,
              str "stack/feature/1", str "main"⟩,
             ⟨⟨str "a2", str "a2", str "T", str "C"⟩, some 8, none,
              str "stack/feature/2", str "stack/feature/1"⟩],
            str "main", none⟩ : Stack).dependsOn (str "main")) ∧
      ∃ pr, (⟨⟨str "a1", str "a1", str "S", str "B"⟩, some 7, none,
          str "stack/feature/1", str "main"⟩ : StackEntry).prNumber = some pr ∧
        isMergeOf pr (([LandAction.updatePRBase 8 (str "main"),
          LandAction.merge 7 (str "Subject (#7)") [' ']] : List LandAction).get ⟨j, hj⟩)
          = true) :=
  ⟨rfl, rfl, rfl,
    landCommand_update_before_merge
      ⟨str "feature",
        [⟨⟨str "a1", str "a1", str "S", str "B"⟩, some 7, none,
          str "stack/feature/1", str "main"⟩,
         ⟨⟨str "a2", str "a2", str "T", str "C"⟩, some 8, none,
          str "stack/feature/2", str "stack/feature/1"⟩],
        str "main", none⟩
      ⟨true, str "CLEAN", none, []⟩ (str "Subject") (str "main") false
      [LandAction.updatePRBase 8 (str "main"),
        LandAction.merge 7 (str "Subject (#7)") [' ']]
      rfl _ _ [] rfl 8 rfl⟩

example : matchTrailer (str "Stacker-Branch: foo/1") =
    some (str "Stacker-Branch", str "foo/1") := by decide
example : matchTrailer (str "no colon here") = none := by decide
example : parseTrailers (str "Subject\n\nK: v\nStacker-PR: 3") =
    [(str "Stacker-PR", str "3"), (str "K", str "v")] := by decide
example : setTrailers (str "Subject") [(str "K", str "v")] =
    str "Subject\n\nK: v" := by decide
example : stripStackerTrailers
    (str "Subject\n\nBody text\n\nReviewed-by: X <x@y.com>\nStacker-Branch: foo/1") =
    str "Subject\n\nBody text\n\nReviewed-by: X <x@y.com>" := by decide
example : extractStackName (str "stack/update-docs/3") = str "update-docs" := by decide
example : extractStackName (str "other-feature/2") = str "other-feature/2" := by decide
example : extractStackName (str "stack/a/b/2") = str "a/b" := by decide
example : generateStackBranchName (str "feature") 1 = str "stack/feature/1" := by decide
example : detectDependency (str "stack/my-feature/1")
    (str "Base\n\nStacker-Branch: stack/other-feature/2\nStacker-PR: 42") =
    some ⟨str "other-feature", str "stack/other-feature/2", some 42, true⟩ := by decide
example : splitLines (str "a\nb") = [str "a", str "b"] := by decide

